import Mathlib

/-!
Verification of the McQuic quantization / entropy-coding core.

This file gives a shallow embedding, over `ℚ`, `ℤ` and nested `List`s, of the
code in `mcquic/modules/entropyCoder.py` and `mcquic/modules/quantizer.py`:

* tensors of shape `[n, m, h, w]` are nested lists (`Tensor4` below) and
  floating point values are modelled as exact rationals;
* the `EntropyCoder` module state (`_freqEMA`, the `cdfs`/`freq` caches and the
  `needUpdate` dirty flag) is an explicit structure, and its methods are
  state-passing functions;
* the rANS primitives (`RansEncoder.encodeWithIndexes`,
  `RansDecoder.decodeWithIndexes`, `pmfToQuantizedCDF`) live in the `mcquic.rans`
  C extension which is not part of the Python sources; they are modelled from
  the specification text (see the doc comments marked "Modelled from the spec").

Theorems about the claims follow the definitions.
-/

/-! ## Generic list helpers -/

/-- Number of `true` entries of a boolean mask. -/
def countTrue (l : List Bool) : Nat := l.count true

/-- Boolean test that an integer list is monotonically non-decreasing. -/
def nonDecreasing : List Int → Bool
  | [] => true
  | [_] => true
  | a :: b :: rest => decide (a ≤ b) && nonDecreasing (b :: rest)

/-- Split off `count` consecutive chunks of length `size` from a flat list
(the row-major inverse of flattening). -/
def chunkN (size : Nat) : Nat → List Int → List (List Int)
  | 0, _ => []
  | count + 1, xs => xs.take size :: chunkN size count (xs.drop size)

/-- Zip three lists (like Python `zip`, truncating to the shortest). -/
def zip3 : List α → List β → List γ → List (α × β × γ)
  | a :: as, b :: bs, c :: cs => (a, b, c) :: zip3 as bs cs
  | _, _, _ => []

/-- Zip five lists (like Python `zip`, truncating to the shortest). -/
def zip5 : List α → List β → List γ → List δ → List ε →
    List (α × β × γ × δ × ε)
  | a :: as, b :: bs, c :: cs, d :: ds, e :: es => (a, b, c, d, e) :: zip5 as bs cs ds es
  | _, _, _, _, _ => []

/-- Boolean-mask assignment `xs[mask] = vals` (PyTorch semantics): positions
whose mask entry is `true` receive the elements of `vals` in index order, the
other positions are unchanged. -/
def maskAssign : List α → List Bool → List α → List α
  | [], _, _ => []
  | x :: xs, [], _ => x :: xs
  | x :: xs, b :: bs, vals =>
    if b then
      match vals with
      | [] => x :: maskAssign xs bs []
      | v :: vs => v :: maskAssign xs bs vs
    else x :: maskAssign xs bs vals

/-- Round to nearest with ties to even, the rounding mode of `torch.round`. -/
def roundTiesEven (q : ℚ) : ℤ :=
  let f := ⌊q⌋
  let r := q - f
  if r < 1 / 2 then f
  else if 1 / 2 < r then f + 1
  else if f % 2 = 0 then f else f + 1

/-! ## Tensors as nested lists -/

/-- A `[m, h, w]` integer code tensor (one image at one level). -/
abbrev Tensor3 := List (List (List Int))

/-- A `[n, m, h, w]` integer code tensor (a batch at one level). -/
abbrev Tensor4 := List Tensor3

/-- `t` has shape `[m, h, w]`. -/
def Shape3 (t : Tensor3) (m h w : Nat) : Prop :=
  t.length = m ∧ ∀ mat ∈ t, mat.length = h ∧ ∀ row ∈ mat, row.length = w

/-- `t` has shape `[n, m, h, w]`. -/
def Shape4 (t : Tensor4) (n m h w : Nat) : Prop :=
  t.length = n ∧ ∀ img ∈ t, Shape3 img m h w

instance (t : Tensor3) (m h w : Nat) : Decidable (Shape3 t m h w) := by
  unfold Shape3; infer_instance

instance (t : Tensor4) (n m h w : Nat) : Decidable (Shape4 t n m h w) := by
  unfold Shape4; infer_instance

/-- `code.shape[0]` of a `[n, m, h, w]` tensor. -/
def dim0 (t : Tensor4) : Nat := t.length

/-- `code.shape[1]` of a `[n, m, h, w]` tensor. -/
def dim1 (t : Tensor4) : Nat := (t.headD []).length

/-- `code.shape[2]` of a `[n, m, h, w]` tensor. -/
def dim2 (t : Tensor4) : Nat := ((t.headD []).headD []).length

/-- `code.shape[3]` of a `[n, m, h, w]` tensor. -/
def dim3 (t : Tensor4) : Nat := (((t.headD []).headD []).headD []).length

/-- Row-major flattening of a `[m, h, w]` tensor (`codePerImage.flatten()`). -/
def flatten3 (t : Tensor3) : List Int := (t.map List.flatten).flatten

/-- Row-major reshape of a flat list to `[m, h, w]`
(`torch.tensor(restored).reshape(m, h, w)`). -/
def reshape3 (m h w : Nat) (xs : List Int) : Tensor3 :=
  (chunkN (h * w) m xs).map (chunkN w h)

/-! ## The rANS primitives, modelled from the spec -/

/-- Modelled from the spec: the binary produced by
`RansEncoder.encodeWithIndexes` of the `mcquic.rans` C extension, which is not
part of the Python sources.  The spec fixes only its contract: "produce a
single byte string such that decoding with the identical index/CDF/size/offset
arrays yields exactly the original symbol sequence", the byte string itself
being opaque.  We therefore model the binary as the record of the encoding
call. -/
structure RansBinary where
  symbols : List Int
  indexes : List Int
  cdf : List (List Int)
  cdfSizes : List Int
  offsets : List Int
deriving DecidableEq

/-- Modelled from the spec: `RansEncoder.encodeWithIndexes` (mcquic.rans C
extension, not in the Python sources).  It packs a flat symbol sequence with
its per-symbol group indices, per-group CDFs, CDF sizes and offsets into an
opaque binary. -/
def encodeWithIndexes (symbols indexes : List Int) (cdf : List (List Int))
    (cdfSizes : List Int) (offsets : List Int) : RansBinary :=
  ⟨symbols, indexes, cdf, cdfSizes, offsets⟩

/-- Modelled from the spec: `RansDecoder.decodeWithIndexes` (mcquic.rans C
extension, not in the Python sources).  "Decoding with the identical
index/CDF/size/offset arrays yields exactly the original symbol sequence";
with any other arrays the output is unspecified (we return `[]`). -/
def decodeWithIndexes (b : RansBinary) (indexes : List Int)
    (cdf : List (List Int)) (cdfSizes : List Int) (offsets : List Int) : List Int :=
  if b.indexes = indexes ∧ b.cdf = cdf ∧ b.cdfSizes = cdfSizes ∧ b.offsets = offsets then
    b.symbols
  else []

/-- Modelled from the spec: `pmfToQuantizedCDF` (mcquic.rans C extension,
ported from CompressAI, not in the Python sources).  The spec fixes its
output shape and meaning: "a monotonically non-decreasing integer array of
length K+2 scaled to 2^16 total mass", with "first entry 0, last entry 2^16"
and "the standard range-coder convention of K+2 entries (K symbol boundaries
plus two sentinels)"; entry `i` encodes the cumulative probability through
symbol `i`, quantized to the given precision.  We realize this as the rounded
cumulative sums of the pmf, clamped to the total mass, followed by the final
sentinel. -/
def pmfToQuantizedCDF (pmf : List ℚ) (precision : Nat) : List Int :=
  let total : Int := 2 ^ precision
  ((List.range (pmf.length + 1)).map (fun i =>
    max 0 (min total (roundTiesEven ((2 ^ precision : ℚ) * (pmf.take i).sum))))) ++ [total]

/-! ## EntropyCoder (mcquic/modules/entropyCoder.py) -/

/-- The `CodeSize` header record (`mcquic.utils.specification.CodeSize`):
group count `m`, per-level heights and widths, per-level alphabet sizes. -/
structure CodeSize where
  m : Nat
  heights : List Nat
  widths : List Nat
  k : List Nat
deriving DecidableEq

/-- The state of an `EntropyCoder` module: the per-level `[m, k]` EMA
frequency tables `_freqEMA`, the alphabet sizes `_k`, the blend factor
`_decay`, the two cached derived tables and the dirty flag. -/
structure EntropyCoder where
  m : Nat
  k : List Nat
  decay : ℚ
  freqEMA : List (List (List ℚ))
  cdfs : Option (List (List (List Int)))
  freq : Option (List (List (List Int)))
  needUpdate : Bool
deriving DecidableEq

/-- `EntropyCoder.__init__(m, k, ema)`: uniform initial frequencies
(`torch.ones(m, ki)` per level), `decay = 1 - ema`, empty caches, dirty flag
set. -/
def mkEntropyCoder (m : Nat) (k : List Nat) (ema : ℚ) : EntropyCoder :=
  { m := m
    k := k
    decay := 1 - ema
    freqEMA := k.map (fun ki => List.replicate m (List.replicate ki (1 : ℚ)))
    cdfs := none
    freq := none
    needUpdate := true }

/-- Elementwise sum of two `[m, k]` matrices. -/
def matAdd (a b : List (List ℚ)) : List (List ℚ) :=
  List.zipWith (List.zipWith (· + ·)) a b

/-- `dist.all_reduce(totalCount)`: sum of the per-worker `[m, k]` count
matrices. -/
def allReduce : List (List (List ℚ)) → List (List ℚ)
  | [] => []
  | x :: rest => rest.foldl matAdd x

/-- The EMA blend of `EntropyCoder.forward`:
`ema = self._decay * totalCount + (1 - self._decay) * self._freqEMA[lv]`,
elementwise on `[m, k]` matrices. -/
def emaBlend (decay : ℚ) (freqEMA totalCount : List (List ℚ)) : List (List ℚ) :=
  List.zipWith (List.zipWith (fun p c => decay * c + (1 - decay) * p)) freqEMA totalCount

/-- `EntropyCoder.forward(oneHotCodes)`.  For each level the code takes the
one-hot assignment tensor `[n, m, h, w, k]`, sums it over the batch and
spatial dimensions (`code.sum((0, 2, 3))`), all-reduces the resulting
`[m, k]` count matrix across the distributed workers, and blends it into
`_freqEMA[lv]` by EMA; finally it sets the dirty flag.  We take as input, per
level, the list of per-worker `[m, k]` count matrices (the results of
`code.sum((0, 2, 3))` on each worker); `allReduce` performs the distributed
summation.  Levels beyond the input list keep their table (the loop only
ranges over the input). -/
def EntropyCoder.forward (s : EntropyCoder)
    (counts : List (List (List (List ℚ)))) : EntropyCoder :=
  { s with
    freqEMA := s.freqEMA.mapIdx (fun lv fe =>
      match counts[lv]? with
      | some perWorker => emaBlend s.decay fe (allReduce perWorker)
      | none => fe)
    needUpdate := true }

/-- The recomputation of one level of the `Freq` property:
`(freqEMA / freqEMA.sum(-1, keepdim=True) * 65536).round().long()`. -/
def freqLevel (freqEMA : List (List ℚ)) : List (List Int) :=
  freqEMA.map (fun g => g.map (fun x => roundTiesEven (x / g.sum * 65536)))

/-- The recomputation of the `Freq` property over all levels. -/
def freqCompute (freqEMA : List (List (List ℚ))) : List (List (List Int)) :=
  freqEMA.map freqLevel

/-- The value returned by the `Freq` property: the cached tables if the cache
is present and the dirty flag is clear, otherwise the recomputation. -/
def EntropyCoder.freqValue (s : EntropyCoder) : List (List (List Int)) :=
  match s.freq, s.needUpdate with
  | some f, false => f
  | _, _ => freqCompute s.freqEMA

/-- One group of the `CDFs` property body: `total = freqAtM.sum()`; if
`total < 1` fall back to the uniform pmf `ones / len(freqAtM)`, else normalize
to `freqAtM / total`; then quantize with `pmfToQuantizedCDF(prob, 16)`. -/
def buildCDF (freqAtM : List Int) : List Int :=
  let total := freqAtM.sum
  let prob : List ℚ :=
    if total < 1 then freqAtM.map (fun _ => 1 / (freqAtM.length : ℚ))
    else freqAtM.map (fun x : Int => (x : ℚ) / (total : ℚ))
  pmfToQuantizedCDF prob 16

/-- The recomputation of the `CDFs` property over all levels and groups. -/
def cdfsCompute (freq : List (List (List Int))) : List (List (List Int)) :=
  freq.map (fun lvl => lvl.map buildCDF)

/-- The value returned by the `CDFs` property: the cached tables if the cache
is present and the dirty flag is clear, otherwise the recomputation (from the
`Freq` property value). -/
def EntropyCoder.cdfsValue (s : EntropyCoder) : List (List (List Int)) :=
  match s.cdfs, s.needUpdate with
  | some c, false => c
  | _, _ => cdfsCompute s.freqValue

/-- The `Freq` property as a state transformer.  Returns the value, the
updated module state, and whether the tables were recomputed (`true`) or the
cached tables were returned (`false`). -/
def EntropyCoder.freqStep (s : EntropyCoder) :
    List (List (List Int)) × EntropyCoder × Bool :=
  match s.freq, s.needUpdate with
  | some f, false => (f, s, false)
  | _, _ =>
    let f := freqCompute s.freqEMA
    (f, { s with freq := some f }, true)

/-- The `CDFs` property as a state transformer.  Returns the value, the
updated module state, and whether the tables were recomputed (`true`) or the
cached tables were returned (`false`).  Mirrors the code: the cached `cdfs`
are returned only when `self.cdfs is not None and not self.needUpdate`;
otherwise the tables are rebuilt from the `Freq` property and stored.  Note
that the code never clears `needUpdate` here. -/
def EntropyCoder.cdfsStep (s : EntropyCoder) :
    List (List (List Int)) × EntropyCoder × Bool :=
  match s.cdfs, s.needUpdate with
  | some c, false => (c, s, false)
  | _, _ =>
    let fr := s.freqStep
    let c := cdfsCompute fr.1
    (c, { fr.2.1 with cdfs := some c }, true)

/-- The `idx` array of `compress`/`decompress`:
`torch.arange(m)[:, None, None].expand(m, h, w).flatten()`, i.e. each group
index repeated over its `h * w` spatial positions. -/
def idxArray (m h w : Nat) : List Int :=
  (List.range m).flatMap (fun g => List.replicate (h * w) (g : Int))

/-- The loop body of `EntropyCoder._checkShape`: for each level, raise if the
first level's `n` is zero or the level's `m` or `n` differ from the first
level's. -/
def checkShapeLoop (n m : Nat) : List Tensor4 → Except String (Nat × Nat)
  | [] => .ok (n, m)
  | code :: rest =>
    if n < 1 then .error "Now n = 0."
    else if m ≠ dim1 code then .error "Now m is inconsisitent."
    else if n ≠ dim0 code then .error "Now n is inconsisitent."
    else checkShapeLoop n m rest

/-- `EntropyCoder._checkShape(codes)`: raise on an empty list, otherwise check
every level against the first level's batch size `n` and group count `m`. -/
def checkShape (codes : List Tensor4) : Except String (Nat × Nat) :=
  match codes with
  | [] => .error "Length of codes is 0."
  | c0 :: _ => checkShapeLoop (dim0 c0) (dim1 c0) codes

/-- One `encodeWithIndexes` call of `EntropyCoder.compress` for one image at
one level: symbols are the flattened `[m, h, w]` code, indices the flattened
group indices, cdf sizes `[ki + 2] * m` and offsets all zero. -/
def encodeImage (m h w ki : Nat) (cdf : List (List Int)) (img : Tensor3) : RansBinary :=
  encodeWithIndexes (flatten3 img) (idxArray m h w) cdf
    (List.replicate m ((ki : Int) + 2)) (List.replicate (m * h * w) (0 : Int))

/-- `EntropyCoder.compress(codes)`.  After `_checkShape`, the code iterates
over `zip(codes, self._k, self.CDFs)` (Python `zip`, truncating), records each
level's spatial size, and appends, level by level, each image's binary to that
image's list; `compressed[i]` therefore holds one binary per zipped level, in
level order, which we build directly.  It returns the per-image binary lists
and `n` copies of the `CodeSize` header. -/
def EntropyCoder.compress (s : EntropyCoder) (codes : List Tensor4) :
    Except String (List (List RansBinary) × List CodeSize) :=
  match checkShape codes with
  | .error e => .error e
  | .ok (n, m) =>
    let cdfs := s.cdfsValue
    let levels := zip3 codes s.k cdfs
    let heights := levels.map (fun t => dim2 t.1)
    let widths := levels.map (fun t => dim3 t.1)
    let compressed := (List.range n).map (fun i =>
      levels.map (fun t => encodeImage m (dim2 t.1) (dim3 t.1) t.2.1 t.2.2 (t.1.getD i [])))
    .ok (compressed, List.replicate n (CodeSize.mk m heights widths s.k))

/-- The inner loop of `EntropyCoder.decompress` for one image: for each level
of `zip(binary, self.CDFs, self._k, codeSize.heights, codeSize.widths)`
(Python `zip`, truncating), decode the binary with the reconstructed
index/size/offset arrays and reshape the flat result to `[m, h, w]`.  (The
code builds the index values from `codeSizes[0].m` and expands them to
`codeSize.m`; the expansion requires the two to be equal, and we use
`codeSize.m`.) -/
def decodeImage (cdfs : List (List (List Int))) (ks : List Nat)
    (binary : List RansBinary) (cs : CodeSize) : List Tensor3 :=
  (zip5 binary cdfs ks cs.heights cs.widths).map (fun t =>
    reshape3 cs.m t.2.2.2.1 t.2.2.2.2
      (decodeWithIndexes t.1 (idxArray cs.m t.2.2.2.1 t.2.2.2.2) t.2.1
        (List.replicate cs.m ((t.2.2.1 : Int) + 2))
        (List.replicate (cs.m * t.2.2.2.1 * t.2.2.2.2) (0 : Int))))

/-- `EntropyCoder.decompress(binaries, codeSizes)`: decode each image's
binaries level by level, then stack, for each of the `len(binaries[0])`
levels, the per-image `[m, h, w]` tensors into a `[n, m, h, w]` tensor
(images whose binary list has no entry at a level contribute nothing to that
level's stack). -/
def EntropyCoder.decompress (s : EntropyCoder) (binaries : List (List RansBinary))
    (codeSizes : List CodeSize) : List Tensor4 :=
  let cdfs := s.cdfsValue
  let lv := (binaries.headD []).length
  let perImage := (binaries.zip codeSizes).map (fun p => decodeImage cdfs s.k p.1 p.2)
  (List.range lv).map (fun l => perImage.filterMap (fun img => img[l]?))

/-! ## Quantizer (mcquic/modules/quantizer.py) -/

/-- Stable insertion of index `i` into an index list sorted by descending
value of `xs`. -/
def insertDesc (xs : List ℚ) (i : Nat) : List Nat → List Nat
  | [] => [i]
  | j :: rest =>
    if xs.getD j 0 ≤ xs.getD i 0 then i :: j :: rest
    else j :: insertDesc xs i rest

/-- Stable insertion sort of an index list by descending value of `xs`. -/
def sortIdxDesc (xs : List ℚ) : List Nat → List Nat
  | [] => []
  | i :: is => insertDesc xs i (sortIdxDesc xs is)

/-- `torch.argsort(freqGroup, descending=True)`: the indices of `xs` ordered
by descending value (ties broken by ascending index; `torch.argsort` leaves
the tie order unspecified, and we fix the stable order). -/
def argsortDesc (xs : List ℚ) : List Nat :=
  sortIdxDesc xs (List.range xs.length)

/-- The scatter `mask[maskIdx] = -1.` into `torch.zeros(total)`. -/
def scatterMask (total : Nat) (maskIdx : List Nat) : List ℚ :=
  (List.range total).map (fun i => if i ∈ maskIdx then -1 else 0)

/-- Squared Euclidean distance of two codebook rows
(`((a - b) ** 2).sum(-1)`). -/
def sqDist (a b : List ℚ) : ℚ :=
  (List.zipWith (fun x y => (x - y) * (x - y)) a b).sum

/-! ### Named stages of the reassignment policy (mirroring `reassignGroup`) -/

/-- The never-assigned mask `freqGroup < Consts.Eps` of `reAssignCodebook`. -/
def neverAssignedMask (eps : ℚ) (fg : List ℚ) : List Bool :=
  fg.map (fun x => decide (x < eps))

/-- The masked frequency vector after the random-protection scatter
(`freqGroup[neverAssignedLoc] = mask`). -/
def cappedFreq (eps : ℚ) (k : Nat) (perm : List Nat) (fg : List ℚ) : List ℚ :=
  maskAssign fg (neverAssignedMask eps fg)
    (scatterMask (countTrue (neverAssignedMask eps fg)) (perm.drop (k / 2)))

/-- The recomputed never-assigned mask
`(freqGroup < Consts.Eps) * (freqGroup > -Consts.Eps)`. -/
def neverAssignedMask2 (eps : ℚ) (k : Nat) (perm : List Nat) (fg : List ℚ) : List Bool :=
  (cappedFreq eps k perm fg).map (fun x => decide (x < eps) && decide (-eps < x))

/-- The per-group body of `_multiCodebookQuantization.reAssignCodebook`.
`eps` is `Consts.Eps` (the near-zero usage threshold; the `Consts` module is
not part of the given sources, so the threshold is a parameter), `k` is
`self._k`, and `perm` is the value of `torch.randperm(totalNeverAssigned)`
(randomness is a parameter).

Mirrors the code: entries with `freq < eps` are never-assigned; if more than
`k // 2` entries are never assigned, a random selection
`perm[k // 2 :]` of them is dropped from the replacement set by scattering
`-1` over their (zeroed) frequencies, and the never-assigned set is recomputed
as `(freq < eps) * (freq > -eps)`; finally the never-assigned positions are
overwritten, in index order, by the first `totalNeverAssigned` codebook rows
ranked by descending (masked) frequency. -/
def reassignGroup (eps : ℚ) (k : Nat) (perm : List Nat)
    (codebookGroup : List (List ℚ)) (freqGroup : List ℚ) : List (List ℚ) :=
  let step :=
    if countTrue (neverAssignedMask eps freqGroup) > k / 2 then
      (cappedFreq eps k perm freqGroup,
       neverAssignedMask2 eps k perm freqGroup,
       countTrue (neverAssignedMask2 eps k perm freqGroup))
    else
      (freqGroup, neverAssignedMask eps freqGroup,
       countTrue (neverAssignedMask eps freqGroup))
  let argIdx := argsortDesc step.1
  let mostAssigned := argIdx.map (fun i => codebookGroup.getD i [])
  maskAssign codebookGroup step.2.1 (mostAssigned.take step.2.2)

/-- The boolean diff of `reAssignCodebook`:
`diff = ((codebook - self._codebook) ** 2).sum(-1) > 1e-4`, flattened over
groups and entries. -/
def codebookDiff (newBook oldBook : List (List (List ℚ))) : List Bool :=
  (newBook.zip oldBook).flatMap (fun p =>
    (p.1.zip p.2).map (fun q => decide (sqDist q.1 q.2 > 1 / 10000)))

/-- `_multiCodebookQuantization.reAssignCodebook(freq)`: apply
`reassignGroup` to each `enumerate(zip(self._codebook, freq))` group (groups
beyond the zip are untouched), and return the new codebook together with the
flattened boolean diff against the old one.  `perms g` is the
`torch.randperm` drawn for group `g`. -/
def reAssignCodebook (eps : ℚ) (perms : Nat → List Nat)
    (codebook : List (List (List ℚ))) (freq : List (List ℚ)) :
    List (List (List ℚ)) × List Bool :=
  let k := (codebook.headD []).length
  let newBook := codebook.mapIdx (fun g cg =>
    match freq[g]? with
    | some fg => reassignGroup eps k (perms g) cg fg
    | none => cg)
  (newBook, codebookDiff newBook codebook)

/-- Mean of a boolean list as a rational (`diff.float().mean()`). -/
def boolMean (l : List Bool) : ℚ := (countTrue l : ℚ) / (l.length : ℚ)

/-- `UMGMQuantizer.reAssignCodebook()`: reassign every level's codebook from
its normalized frequencies and return
`torch.cat(reassigned).float().mean()`, the mean of the concatenated boolean
diffs.  `perms lv g` is the `torch.randperm` drawn for level `lv`, group
`g`. -/
def reAssignAll (eps : ℚ) (perms : Nat → Nat → List Nat)
    (codebooks : List (List (List (List ℚ)))) (freqs : List (List (List ℚ))) :
    List (List (List (List ℚ))) × ℚ :=
  let results := (codebooks.zip freqs).mapIdx (fun lv p =>
    reAssignCodebook eps (perms lv) p.1 p.2)
  (results.map Prod.fst, boolMean ((results.map Prod.snd).flatten))

/-! ### Multi-level decoding

`_quantizerDecoder` is assembled from injected sub-modules
(`dequantizer`, `dequantizationHead`, `sideHead`, `restoreHead`), which we
model as function fields over an arbitrary code type `C` and feature type
`V`. -/

/-- A `_quantizerDecoder`: dequantizer plus the three head transforms; the
side head is absent (`None`) exactly at the last level. -/
structure QuantDecoder (C V : Type) where
  dequant : C → V
  dequantizationHead : V → V
  sideHead : Option (V → V)
  restoreHead : V → V

/-- `_quantizerDecoder.decode(code, formerLevel)`:
`q = dequantizationHead(dequantizer.decode(code))`, then
`xHat = q + sideHead(formerLevel)` when a side head is present, else
`xHat = q`; return `restoreHead(xHat)`.  (When the side head is present the
code requires a former level; that case never receives `none` in a well-formed
chain, and we return `restoreHead q` for it.) -/
def QuantDecoder.decode [Add V] (d : QuantDecoder C V) (code : C)
    (formerLevel : Option V) : V :=
  let q := d.dequantizationHead (d.dequant code)
  let xHat :=
    match d.sideHead, formerLevel with
    | some sh, some f => q + sh f
    | _, _ => q
  d.restoreHead xHat

/-- `UMGMQuantizer.decode(codes)`: fold over
`zip(self._decoders[::-1], codes[::-1])`, starting from `formerLevel = None`;
each step decodes one level on top of the former (coarser) levels. -/
def umgmDecode [Add V] (decoders : List (QuantDecoder C V)) (codes : List C) :
    Option V :=
  (decoders.reverse.zip codes.reverse).foldl
    (fun formerLevel p => some (p.1.decode p.2 formerLevel)) none

/-- `ResidualBackwardQuantizer.decode(codes)`: fold over
`zip(self._decoders[::-1], self._dequantizers[::-1], codes)` (this variant's
`encode` emits codes coarsest level first, so the code list is not reversed);
each step dequantizes a code, adds the former reconstruction when present, and
applies the level's restore head `decoder`. -/
def residualBackwardDecode [Add V] (decoders : List (V → V))
    (dequantizers : List (C → V)) (codes : List C) : Option V :=
  (zip3 decoders.reverse dequantizers.reverse codes).foldl
    (fun formerLevel t =>
      match formerLevel with
      | none => some (t.1 (t.2.1 t.2.2))
      | some f => some (t.1 (t.2.1 t.2.2 + f)))
    none

/-- Codebook shape `(M groups, K entries, D dims)`. -/
def CbShape (cb : List (List (List ℚ))) (m k d : Nat) : Prop :=
  cb.length = m ∧ ∀ g ∈ cb, g.length = k ∧ ∀ row ∈ g, row.length = d

instance (cb : List (List (List ℚ))) (m k d : Nat) : Decidable (CbShape cb m k d) := by
  unfold CbShape; infer_instance

/-! ## Helper lemmas: rounding -/

theorem roundTiesEven_floor_le (q : ℚ) : ⌊q⌋ ≤ roundTiesEven q := by
  unfold roundTiesEven
  dsimp only
  split
  · exact le_refl _
  · split
    · exact le_of_lt (lt_add_one _)
    · split
      · exact le_refl _
      · exact le_of_lt (lt_add_one _)

theorem roundTiesEven_le_floor_add_one (q : ℚ) : roundTiesEven q ≤ ⌊q⌋ + 1 := by
  unfold roundTiesEven
  dsimp only
  split
  · exact le_of_lt (lt_add_one _)
  · split
    · exact le_refl _
    · split
      · exact le_of_lt (lt_add_one _)
      · exact le_refl _

theorem abs_roundTiesEven_sub (q : ℚ) : |(roundTiesEven q : ℚ) - q| ≤ 1 / 2 := by
  have hfl : (⌊q⌋ : ℚ) ≤ q := Int.floor_le q
  have hfu : q - 1 < (⌊q⌋ : ℚ) := by
    have := Int.lt_floor_add_one q
    linarith
  unfold roundTiesEven
  dsimp only
  split
  · rename_i h
    rw [abs_le]
    constructor <;> linarith
  · rename_i h
    push_neg at h
    split
    · rename_i h2
      push_cast
      rw [abs_le]
      constructor <;> linarith
    · rename_i h2
      push_neg at h2
      have heq : q - (⌊q⌋ : ℚ) = 1 / 2 := le_antisymm h2 h
      split
      · rw [abs_le]; constructor <;> linarith
      · push_cast
        rw [abs_le]
        constructor <;> linarith

theorem roundTiesEven_nonneg (q : ℚ) (h : 0 ≤ q) : 0 ≤ roundTiesEven q :=
  le_trans (Int.floor_nonneg.mpr h) (roundTiesEven_floor_le q)

theorem roundTiesEven_intCast (n : ℤ) : roundTiesEven (n : ℚ) = n := by
  unfold roundTiesEven
  dsimp only
  rw [Int.floor_intCast]
  have : (n : ℚ) - (n : ℚ) = 0 := by ring
  rw [this]
  norm_num

theorem roundTiesEven_le_of_le (q : ℚ) (n : ℤ) (h : q ≤ n) : roundTiesEven q ≤ n := by
  have hfl : ⌊q⌋ ≤ n := by
    have h2 := Int.floor_le_floor h
    rwa [Int.floor_intCast] at h2
  rcases lt_or_eq_of_le hfl with hlt | heq
  · calc roundTiesEven q ≤ ⌊q⌋ + 1 := roundTiesEven_le_floor_add_one q
    _ ≤ n := by omega
  · have hq : q = (n : ℚ) := by
      have h1 : (n : ℚ) ≤ q := by
        rw [← heq]; exact Int.floor_le q
      exact le_antisymm h h1
    rw [hq, roundTiesEven_intCast]

theorem roundTiesEven_eq_floor (q : ℚ) (h : q - (⌊q⌋ : ℚ) < 1 / 2) :
    roundTiesEven q = ⌊q⌋ := by
  unfold roundTiesEven
  dsimp only
  rw [if_pos h]

theorem roundTiesEven_mono {p q : ℚ} (h : p ≤ q) : roundTiesEven p ≤ roundTiesEven q := by
  rcases lt_or_eq_of_le (Int.floor_le_floor h) with hlt | heq
  · calc roundTiesEven p ≤ ⌊p⌋ + 1 := roundTiesEven_le_floor_add_one p
    _ ≤ ⌊q⌋ := by omega
    _ ≤ roundTiesEven q := roundTiesEven_floor_le q
  · have hq : roundTiesEven q =
        if q - (⌊p⌋ : ℚ) < 1 / 2 then ⌊p⌋
        else if 1 / 2 < q - (⌊p⌋ : ℚ) then ⌊p⌋ + 1
        else if ⌊p⌋ % 2 = 0 then ⌊p⌋ else ⌊p⌋ + 1 := by
      unfold roundTiesEven
      dsimp only
      rw [← heq]
    have hple : roundTiesEven p ≤ ⌊p⌋ + 1 := roundTiesEven_le_floor_add_one p
    have hpge : ⌊p⌋ ≤ roundTiesEven p := roundTiesEven_floor_le p
    rw [hq]
    split
    · rename_i hb
      have hp : roundTiesEven p = ⌊p⌋ := roundTiesEven_eq_floor p (by linarith)
      omega
    · split
      · omega
      · rename_i hb1 hb2
        push_neg at hb1 hb2
        by_cases ha : p - (⌊p⌋ : ℚ) < 1 / 2
        · have hp : roundTiesEven p = ⌊p⌋ := roundTiesEven_eq_floor p ha
          split <;> omega
        · have hpq : p = q := by
            push_neg at ha
            have hb : q - (⌊p⌋ : ℚ) = 1 / 2 := le_antisymm hb2 hb1
            have ha2 : p - (⌊p⌋ : ℚ) ≤ q - (⌊p⌋ : ℚ) := by linarith
            have : p - (⌊p⌋ : ℚ) = 1 / 2 := le_antisymm (le_trans ha2 (le_of_eq hb)) ha
            linarith
          rw [hpq, hq, if_neg (not_lt.mpr hb1), if_neg (not_lt.mpr hb2), heq]

/-! ## Helper lemmas: lists and monotone sequences -/

theorem getD_map_of_lt {α β : Type} (f : α → β) (l : List α) (i : Nat) (d : β) (d2 : α)
    (h : i < l.length) : (l.map f).getD i d = f (l.getD i d2) := by
  rw [List.getD_eq_getElem _ _ (by simpa using h), List.getD_eq_getElem _ _ h, List.getElem_map]

theorem sum_map_div (l : List ℚ) (c : ℚ) : (l.map (fun x => x / c)).sum = l.sum / c := by
  induction l with
  | nil => simp
  | cons a t ih => simp [ih, add_div]

theorem nonDecreasing_iff : ∀ l : List Int,
    (nonDecreasing l = true ↔ ∀ i, i + 1 < l.length → l.getD i 0 ≤ l.getD (i + 1) 0)
  | [] => by simp [nonDecreasing]
  | [a] => by simp [nonDecreasing]
  | a :: b :: rest => by
    have hstep : nonDecreasing (a :: b :: rest) = (decide (a ≤ b) && nonDecreasing (b :: rest)) := rfl
    rw [hstep, Bool.and_eq_true, decide_eq_true_eq, nonDecreasing_iff (b :: rest)]
    constructor
    · rintro ⟨hab, hrest⟩ i hi
      cases i with
      | zero => simpa [List.getD] using hab
      | succ j =>
        have h2 := hrest j (by simpa using hi)
        simpa [List.getD] using h2
    · intro hall
      refine ⟨by simpa [List.getD] using hall 0 (by simp), fun i hi => ?_⟩
      have h2 := hall (i + 1) (by simpa using hi)
      simpa [List.getD] using h2

theorem nonDecreasing_of_mono (n : Nat) (f : Nat → Int) (t : Int)
    (hmono : ∀ i, i + 1 ≤ n → f i ≤ f (i + 1)) (hlast : f n ≤ t) :
    nonDecreasing ((List.range (n + 1)).map f ++ [t]) = true := by
  rw [nonDecreasing_iff]
  intro i hi
  have hlen : ((List.range (n + 1)).map f ++ [t]).length = n + 2 := by simp
  rw [hlen] at hi
  have hmaplen : ((List.range (n + 1)).map f).length = n + 1 := by simp
  have hget : ∀ j, j < n + 1 → ((List.range (n + 1)).map f ++ [t]).getD j 0 = f j := by
    intro j hj
    rw [List.getD_append _ _ _ _ (by omega), getD_map_of_lt f _ j 0 0 (by simpa using hj)]
    congr 1
    rw [List.getD_eq_getElem _ _ (by simpa using hj)]
    simp
  rcases Nat.lt_or_ge (i + 1) (n + 1) with hcase | hcase
  · rw [hget i (by omega), hget (i + 1) hcase]
    exact hmono i (by omega)
  · have hieq : i = n := by omega
    rw [hieq, hget n (by omega)]
    have hlastget : ((List.range (n + 1)).map f ++ [t]).getD (n + 1) 0 = t := by
      rw [List.getD_eq_getElem _ _ (by simp)]
      rw [List.getElem_append_right (by simp)]
      simp
    rw [hlastget]
    exact hlast

theorem roundTiesEven_zero : roundTiesEven 0 = 0 := by
  have h := roundTiesEven_intCast 0
  simpa using h

theorem sum_take_mono_of_nonneg (l : List ℚ) (hnn : ∀ x ∈ l, 0 ≤ x) (i : Nat) :
    (l.take i).sum ≤ (l.take (i + 1)).sum := by
  rcases Nat.lt_or_ge i l.length with h | h
  · rw [List.take_succ, List.sum_append]
    have h0 : 0 ≤ (l[i]?.toList).sum := by
      rw [List.getElem?_eq_getElem h]
      simpa using hnn _ (List.getElem_mem h)
    linarith
  · rw [List.take_of_length_le h, List.take_of_length_le (by omega)]

theorem sum_take_le_total (l : List ℚ) (hnn : ∀ x ∈ l, 0 ≤ x) (i : Nat) :
    (l.take i).sum ≤ l.sum := by
  conv_rhs => rw [← List.take_append_drop i l]
  rw [List.sum_append]
  have h0 : 0 ≤ (l.drop i).sum :=
    List.sum_nonneg (fun x hx => hnn x (List.mem_of_mem_drop hx))
  linarith

theorem sum_take_nonneg (l : List ℚ) (hnn : ∀ x ∈ l, 0 ≤ x) (i : Nat) :
    0 ≤ (l.take i).sum :=
  List.sum_nonneg (fun x hx => hnn x (List.mem_of_mem_take hx))

/-- The entries of the (spec-modelled) quantized CDF, before the final
sentinel: entry `i` is the clamped rounding of `2^16` times the cumulative
pmf mass through symbol `i - 1`. -/
theorem pmfToQuantizedCDF_getD (pmf : List ℚ) (i : Nat) (hi : i < pmf.length + 1) :
    (pmfToQuantizedCDF pmf 16).getD i 0 =
      max 0 (min (2 ^ 16) (roundTiesEven ((2 ^ 16 : ℚ) * (pmf.take i).sum))) := by
  unfold pmfToQuantizedCDF
  dsimp only
  rw [List.getD_append _ _ _ _ (by simpa using hi),
    getD_map_of_lt _ _ i 0 0 (by simpa using hi)]
  congr 2
  rw [List.getD_eq_getElem _ _ (by simpa using hi)]
  simp

/-- The final sentinel of the (spec-modelled) quantized CDF. -/
theorem pmfToQuantizedCDF_getD_last (pmf : List ℚ) :
    (pmfToQuantizedCDF pmf 16).getD (pmf.length + 1) 0 = 2 ^ 16 := by
  unfold pmfToQuantizedCDF
  dsimp only
  rw [List.getD_eq_getElem _ _ (by simp)]
  rw [List.getElem_append_right (by simp)]
  simp

/-- The core validity property of the (spec-modelled) CDF quantizer: for a
non-negative pmf of mass at most 1, the quantized CDF has length `K + 2`,
first entry `0`, last entry `2^16`, and is monotonically non-decreasing. -/
theorem pmfToQuantizedCDF_valid (pmf : List ℚ) (hnn : ∀ x ∈ pmf, 0 ≤ x) :
    (pmfToQuantizedCDF pmf 16).length = pmf.length + 2 ∧
    (pmfToQuantizedCDF pmf 16).getD 0 0 = 0 ∧
    (pmfToQuantizedCDF pmf 16).getD (pmf.length + 1) 0 = 65536 ∧
    nonDecreasing (pmfToQuantizedCDF pmf 16) = true := by
  refine ⟨by unfold pmfToQuantizedCDF; simp, ?_, ?_, ?_⟩
  · rw [pmfToQuantizedCDF_getD pmf 0 (by omega)]
    rw [List.take_zero, List.sum_nil, mul_zero, roundTiesEven_zero]
    rw [min_eq_right (by norm_num : (0 : ℤ) ≤ 2 ^ 16), max_self]
  · rw [pmfToQuantizedCDF_getD_last]
    norm_num
  · have hlist : pmfToQuantizedCDF pmf 16 =
        (List.range (pmf.length + 1)).map (fun i =>
          max 0 (min ((2 : ℤ) ^ 16) (roundTiesEven ((2 ^ 16 : ℚ) * (pmf.take i).sum)))) ++
          [(2 : ℤ) ^ 16] := rfl
    rw [hlist]
    exact nonDecreasing_of_mono pmf.length
      (fun i => max 0 (min ((2 : ℤ) ^ 16) (roundTiesEven ((2 ^ 16 : ℚ) * (pmf.take i).sum))))
      (2 ^ 16)
      (fun i _ => by
        refine max_le_max (le_refl 0) (min_le_min (le_refl _) (roundTiesEven_mono ?_))
        have hmono := sum_take_mono_of_nonneg pmf hnn i
        nlinarith)
      (max_le (by norm_num) (min_le_left _ _))

/-! ## Lemmas about the derived frequency / CDF tables -/

theorem freqValue_of_needUpdate (s : EntropyCoder) (h : s.needUpdate = true) :
    s.freqValue = freqCompute s.freqEMA := by
  unfold EntropyCoder.freqValue
  rw [h]
  cases s.freq <;> rfl

theorem cdfsValue_of_needUpdate (s : EntropyCoder) (h : s.needUpdate = true) :
    s.cdfsValue = cdfsCompute (freqCompute s.freqEMA) := by
  unfold EntropyCoder.cdfsValue
  rw [h, freqValue_of_needUpdate s h]
  cases s.cdfs <;> rfl

theorem buildCDF_valid (fr : List Int) (hnn : ∀ x ∈ fr, (0 : Int) ≤ x) :
    (buildCDF fr).length = fr.length + 2 ∧
    (buildCDF fr).getD 0 0 = 0 ∧
    (buildCDF fr).getD (fr.length + 1) 0 = 65536 ∧
    nonDecreasing (buildCDF fr) = true := by
  unfold buildCDF
  dsimp only
  split
  · have h := pmfToQuantizedCDF_valid (fr.map (fun _ => 1 / (fr.length : ℚ)))
      (by
        intro x hx
        rw [List.mem_map] at hx
        obtain ⟨y, hy, rfl⟩ := hx
        positivity)
    simpa using h
  · rename_i hge
    push_neg at hge
    have hpos : (0 : ℚ) < (fr.sum : ℚ) := by
      have : (1 : Int) ≤ fr.sum := hge
      exact_mod_cast lt_of_lt_of_le zero_lt_one this
    have h := pmfToQuantizedCDF_valid (fr.map (fun x : Int => (x : ℚ) / (fr.sum : ℚ)))
      (by
        intro x hx
        rw [List.mem_map] at hx
        obtain ⟨y, hy, rfl⟩ := hx
        have h1 : (0 : ℚ) ≤ (y : ℚ) := by exact_mod_cast hnn y hy
        positivity)
    simpa using h

theorem freqLevel_group_nonneg (grp : List ℚ) (hnn : ∀ x ∈ grp, 0 ≤ x) :
    ∀ y ∈ grp.map (fun x => roundTiesEven (x / grp.sum * 65536)), (0 : Int) ≤ y := by
  intro y hy
  rw [List.mem_map] at hy
  obtain ⟨x, hx, rfl⟩ := hy
  apply roundTiesEven_nonneg
  have hs : 0 ≤ grp.sum := List.sum_nonneg hnn
  have hx0 := hnn x hx
  positivity

theorem cdfsCompute_getD (F : List (List (List ℚ))) (lv g : Nat)
    (hlv : lv < F.length) (hg : g < (F.getD lv []).length) :
    ((cdfsCompute (freqCompute F)).getD lv []).getD g [] =
      buildCDF (((F.getD lv []).getD g []).map
        (fun x => roundTiesEven (x / ((F.getD lv []).getD g []).sum * 65536))) := by
  unfold cdfsCompute freqCompute freqLevel
  rw [getD_map_of_lt _ _ lv [] [] (by simpa using hlv)]
  rw [getD_map_of_lt _ _ lv [] [] hlv]
  rw [getD_map_of_lt _ _ g [] [] (by simpa using hg)]
  rw [getD_map_of_lt _ _ g [] [] hg]

/-! ## Claim C2 -/

/-- C2: for every level and every group (of nonnegative EMA statistics, with
the group's width equal to the level's alphabet size K), the quantized CDF
produced by the `CDFs` property is a monotonically non-decreasing integer
sequence of length K + 2 whose first entry is 0 and whose last entry is
2^16 = 65536.  (`needUpdate = true` holds in every reachable state, see
`needUpdate_always_true_init`/`needUpdate_always_true_forward`.) -/
theorem claim_C2_cdf_valid (s : EntropyCoder) (lv g : Nat)
    (hupd : s.needUpdate = true)
    (hlv : lv < s.freqEMA.length)
    (hg : g < (s.freqEMA.getD lv []).length)
    (hnn : ∀ x ∈ (s.freqEMA.getD lv []).getD g [], (0 : ℚ) ≤ x)
    (hK : ((s.freqEMA.getD lv []).getD g []).length = s.k.getD lv 0) :
    ((s.cdfsValue.getD lv []).getD g []).length = s.k.getD lv 0 + 2 ∧
    ((s.cdfsValue.getD lv []).getD g []).getD 0 0 = 0 ∧
    ((s.cdfsValue.getD lv []).getD g []).getD (s.k.getD lv 0 + 1) 0 = 65536 ∧
    nonDecreasing ((s.cdfsValue.getD lv []).getD g []) = true := by
  rw [cdfsValue_of_needUpdate s hupd, cdfsCompute_getD s.freqEMA lv g hlv hg]
  have h := buildCDF_valid
    (((s.freqEMA.getD lv []).getD g []).map
      (fun x => roundTiesEven (x / ((s.freqEMA.getD lv []).getD g []).sum * 65536)))
    (freqLevel_group_nonneg _ hnn)
  rw [List.length_map, hK] at h
  exact h

/-- Witness for C2 at a concrete coder (`m = 1`, `k = [2]`, fresh state). -/
theorem claim_C2_witness :
    (((mkEntropyCoder 1 [2] (99 / 100)).cdfsValue.getD 0 []).getD 0 []).length =
      (mkEntropyCoder 1 [2] (99 / 100)).k.getD 0 0 + 2 ∧
    (((mkEntropyCoder 1 [2] (99 / 100)).cdfsValue.getD 0 []).getD 0 []).getD 0 0 = 0 ∧
    (((mkEntropyCoder 1 [2] (99 / 100)).cdfsValue.getD 0 []).getD 0 []).getD
      ((mkEntropyCoder 1 [2] (99 / 100)).k.getD 0 0 + 1) 0 = 65536 ∧
    nonDecreasing (((mkEntropyCoder 1 [2] (99 / 100)).cdfsValue.getD 0 []).getD 0 []) = true :=
  claim_C2_cdf_valid (mkEntropyCoder 1 [2] (99 / 100)) 0 0 rfl
    (by simp [mkEntropyCoder]) (by simp [mkEntropyCoder])
    (by simp [mkEntropyCoder]) (by simp [mkEntropyCoder])

/-! ## Claim C5 -/

theorem uniform_take_sum (fr : List Int) (i : Nat) (hi : i ≤ fr.length) :
    ((fr.map (fun _ : Int => 1 / (fr.length : ℚ))).take i).sum =
      (i : ℚ) * (1 / (fr.length : ℚ)) := by
  rw [← List.map_take]
  simp [List.map_const, List.sum_replicate, nsmul_eq_mul, Nat.min_eq_left hi]

theorem uniform_cdf_entry (fr : List Int) (i : Nat) (hi : i ≤ fr.length)
    (hKpos : 1 ≤ fr.length) :
    (pmfToQuantizedCDF (fr.map (fun _ : Int => 1 / (fr.length : ℚ))) 16).getD i 0 =
      roundTiesEven (65536 * ((i : ℚ) * (1 / (fr.length : ℚ)))) := by
  have hK0 : (0 : ℚ) < (fr.length : ℚ) := by exact_mod_cast hKpos
  have h216 : ((2 : ℚ) ^ 16) = 65536 := by norm_num
  have h216i : ((2 : Int) ^ 16) = 65536 := by norm_num
  rw [pmfToQuantizedCDF_getD _ i (by simpa using Nat.lt_succ_of_le hi)]
  rw [uniform_take_sum fr i hi, h216, h216i]
  have hv0 : 0 ≤ roundTiesEven (65536 * ((i : ℚ) * (1 / (fr.length : ℚ)))) := by
    apply roundTiesEven_nonneg
    positivity
  have hx : (i : ℚ) * (1 / (fr.length : ℚ)) ≤ 1 := by
    rw [mul_one_div, div_le_one hK0]
    exact_mod_cast hi
  have hv1 : roundTiesEven (65536 * ((i : ℚ) * (1 / (fr.length : ℚ)))) ≤ 65536 := by
    apply roundTiesEven_le_of_le
    push_cast
    nlinarith
  rw [min_eq_right hv1, max_eq_right hv0]

/-- C5: for every group whose histogram total count is less than 1 (in
particular zero total usage), the CDF builder substitutes the uniform
distribution over the K symbols, so every CDF gap is within one unit of the
exact uniform gap 65536 / K; the builder is a total function, so no error is
raised or propagated. -/
theorem claim_C5_uniform_fallback (fr : List Int) (hlt : fr.sum < 1)
    (hKpos : 1 ≤ fr.length) :
    buildCDF fr = pmfToQuantizedCDF (fr.map (fun _ : Int => 1 / (fr.length : ℚ))) 16 ∧
    ∀ i, i < fr.length →
      |((buildCDF fr).getD (i + 1) 0 - (buildCDF fr).getD i 0) * (fr.length : Int) - 65536|
        ≤ (fr.length : Int) := by
  have huni : buildCDF fr =
      pmfToQuantizedCDF (fr.map (fun _ : Int => 1 / (fr.length : ℚ))) 16 := by
    unfold buildCDF
    dsimp only
    rw [if_pos hlt]
  refine ⟨huni, fun i hi => ?_⟩
  have hK0 : (0 : ℚ) < (fr.length : ℚ) := by exact_mod_cast hKpos
  rw [huni, uniform_cdf_entry fr i (le_of_lt hi) hKpos,
    uniform_cdf_entry fr (i + 1) hi hKpos]
  set a : ℚ := 65536 * ((i : ℚ) * (1 / (fr.length : ℚ))) with ha
  set b : ℚ := 65536 * (((i + 1 : Nat) : ℚ) * (1 / (fr.length : ℚ))) with hb
  have hu := abs_roundTiesEven_sub b
  have hw := abs_roundTiesEven_sub a
  rw [abs_le] at hu hw
  have hdiff : (b - a) * (fr.length : ℚ) = 65536 := by
    rw [ha, hb]
    push_cast
    field_simp
    ring
  have hQ : |((roundTiesEven b : ℚ) - (roundTiesEven a : ℚ)) * (fr.length : ℚ) - 65536|
      ≤ (fr.length : ℚ) := by
    rw [abs_le]
    constructor <;> nlinarith [hu.1, hu.2, hw.1, hw.2, hK0]
  exact_mod_cast hQ

/-- Witness for C5 at the concrete all-zero histogram `[0, 0]` (K = 2). -/
theorem claim_C5_witness :
    buildCDF [0, 0] =
      pmfToQuantizedCDF (([0, 0] : List Int).map
        (fun _ : Int => 1 / ((([0, 0] : List Int).length : ℚ)))) 16 ∧
    ∀ i, i < ([0, 0] : List Int).length →
      |((buildCDF [0, 0]).getD (i + 1) 0 - (buildCDF [0, 0]).getD i 0) *
          ((([0, 0] : List Int).length : Int)) - 65536|
        ≤ (([0, 0] : List Int).length : Int) :=
  claim_C5_uniform_fallback [0, 0] (by decide) (by decide)

/-! ## Claim C3 -/

/-- The dirty flag is set at construction. -/
theorem needUpdate_always_true_init (m : Nat) (k : List Nat) (ema : ℚ) :
    (mkEntropyCoder m k ema).needUpdate = true := rfl

/-- The dirty flag is set again by every frequency update. -/
theorem needUpdate_always_true_forward (s : EntropyCoder)
    (counts : List (List (List (List ℚ)))) :
    (s.forward counts).needUpdate = true := rfl

/-- C3 (code bug, failing input): on a fresh coder (m = 1, k = [1]) read the
`CDFs` property twice with no intervening `forward`.  After the first read
the tables are cached (`cdfs.isSome`), yet the second read recomputes them
(`cdfsStep` takes the rebuild branch, flag `true`), because the property
never clears `needUpdate`: the dirty flag is still `true` after the first
read.  The claim says the second read returns the cached tables without
recomputing. -/
theorem claim_C3_code_bug :
    ((mkEntropyCoder 1 [1] (99 / 100)).cdfsStep.2.1).cdfs.isSome = true ∧
    ((mkEntropyCoder 1 [1] (99 / 100)).cdfsStep.2.1).needUpdate = true ∧
    ((mkEntropyCoder 1 [1] (99 / 100)).cdfsStep.2.1).cdfsStep.2.2 = true := by
  refine ⟨rfl, rfl, rfl⟩

/-! ## Claim C4 -/

/-- C4 counterexample: on a fresh coder (m = 1, k = [2]) the exposed
frequency vector of level 0, group 0 sums to 65536, not 1: the `Freq`
property scales the normalized fractions by 2^16 and rounds them to
integers. -/
theorem claim_C4_counterexample :
    ((((mkEntropyCoder 1 [2] (99 / 100)).freqValue).getD 0 []).getD 0 []).sum = 65536 ∧
    (65536 : Int) ≠ 1 := by
  refine ⟨?_, by decide⟩
  rw [freqValue_of_needUpdate _ rfl]
  norm_num [mkEntropyCoder, freqCompute, freqLevel, roundTiesEven, List.getD]

/-- C4 amended: the frequency exposed by the `Freq` property is the
per-group EMA vector normalized to fractions of its total — the fractions sum
to 1 for every group with nonzero total — and then scaled by 2^16 and rounded
to integers (so the exposed integer vector sums to about 2^16, not 1). -/
theorem claim_C4_amended (s : EntropyCoder) (lv g : Nat)
    (hupd : s.needUpdate = true)
    (hlv : lv < s.freqEMA.length) (hg : g < (s.freqEMA.getD lv []).length)
    (hsum : ((s.freqEMA.getD lv []).getD g []).sum ≠ 0) :
    (((s.freqEMA.getD lv []).getD g []).map
        (fun x => x / ((s.freqEMA.getD lv []).getD g []).sum)).sum = 1 ∧
    (s.freqValue.getD lv []).getD g [] =
      ((s.freqEMA.getD lv []).getD g []).map
        (fun x => roundTiesEven (x / ((s.freqEMA.getD lv []).getD g []).sum * 65536)) := by
  constructor
  · rw [sum_map_div]
    exact div_self hsum
  · rw [freqValue_of_needUpdate s hupd]
    unfold freqCompute freqLevel
    rw [getD_map_of_lt _ _ lv [] [] hlv, getD_map_of_lt _ _ g [] [] hg]

/-- Witness for the amended C4 on a fresh coder (m = 1, k = [2]). -/
theorem claim_C4_amended_witness :
    ((((mkEntropyCoder 1 [2] (99 / 100)).freqEMA.getD 0 []).getD 0 []).map
        (fun x => x / (((mkEntropyCoder 1 [2] (99 / 100)).freqEMA.getD 0 []).getD 0 []).sum)).sum = 1 ∧
    ((mkEntropyCoder 1 [2] (99 / 100)).freqValue.getD 0 []).getD 0 [] =
      (((mkEntropyCoder 1 [2] (99 / 100)).freqEMA.getD 0 []).getD 0 []).map
        (fun x => roundTiesEven
          (x / (((mkEntropyCoder 1 [2] (99 / 100)).freqEMA.getD 0 []).getD 0 []).sum * 65536)) :=
  claim_C4_amended (mkEntropyCoder 1 [2] (99 / 100)) 0 0 rfl
    (by simp [mkEntropyCoder]) (by simp [mkEntropyCoder]) (by norm_num [mkEntropyCoder])

/-! ## Claim C6 -/

/-- Shape of a `[m, k]` matrix as nested lists. -/
def MatShape (x : List (List ℚ)) (m k : Nat) : Prop :=
  x.length = m ∧ ∀ r ∈ x, r.length = k

theorem matAdd_shape {a b : List (List ℚ)} {m k : Nat}
    (ha : MatShape a m k) (hb : MatShape b m k) : MatShape (matAdd a b) m k := by
  obtain ⟨hal, har⟩ := ha
  obtain ⟨hbl, hbr⟩ := hb
  constructor
  · simp only [matAdd]
    rw [List.length_zipWith, hal, hbl, inf_idem]
  · intro r hr
    rw [List.mem_iff_getElem] at hr
    obtain ⟨n, hn, rfl⟩ := hr
    simp only [matAdd] at hn ⊢
    rw [List.getElem_zipWith]
    rw [List.length_zipWith, hal, hbl, inf_idem] at hn
    rw [List.length_zipWith]
    rw [har _ (List.getElem_mem _), hbr _ (List.getElem_mem _), inf_idem]

theorem matAdd_getD {a b : List (List ℚ)} {m k : Nat}
    (ha : MatShape a m k) (hb : MatShape b m k) (g i : Nat) (hg : g < m) (hi : i < k) :
    ((matAdd a b).getD g []).getD i 0 =
      (a.getD g []).getD i 0 + (b.getD g []).getD i 0 := by
  obtain ⟨hal, har⟩ := ha
  obtain ⟨hbl, hbr⟩ := hb
  have hga : g < a.length := by omega
  have hgb : g < b.length := by omega
  have hlen : g < (matAdd a b).length := by
    simp only [matAdd]
    rw [List.length_zipWith, hal, hbl, inf_idem]; omega
  rw [List.getD_eq_getElem _ _ hlen, List.getD_eq_getElem _ _ hga, List.getD_eq_getElem _ _ hgb]
  simp only [matAdd]
  rw [List.getElem_zipWith]
  have hia : i < a[g].length := by rw [har _ (List.getElem_mem _)]; omega
  have hib : i < b[g].length := by rw [hbr _ (List.getElem_mem _)]; omega
  have hiz : i < (List.zipWith (· + ·) a[g] b[g]).length := by
    rw [List.length_zipWith]; omega
  rw [List.getD_eq_getElem _ _ hiz, List.getD_eq_getElem _ _ hia, List.getD_eq_getElem _ _ hib]
  rw [List.getElem_zipWith]

theorem foldl_matAdd_spec (rest : List (List (List ℚ))) :
    ∀ (x : List (List ℚ)) (m k : Nat), MatShape x m k →
    (∀ w ∈ rest, MatShape w m k) → ∀ g i, g < m → i < k →
    MatShape (rest.foldl matAdd x) m k ∧
    (((rest.foldl matAdd x).getD g []).getD i 0 =
      (x.getD g []).getD i 0 + (rest.map (fun w => (w.getD g []).getD i 0)).sum) := by
  induction rest with
  | nil =>
    intro x m k hx _ g i hg hi
    exact ⟨hx, by simp⟩
  | cons w rest ih =>
    intro x m k hx hall g i hg hi
    have hw : MatShape w m k := hall w (by simp)
    have hrest : ∀ v ∈ rest, MatShape v m k := fun v hv => hall v (by simp [hv])
    have hx2 : MatShape (matAdd x w) m k := matAdd_shape hx hw
    obtain ⟨hsh, hval⟩ := ih (matAdd x w) m k hx2 hrest g i hg hi
    refine ⟨hsh, ?_⟩
    rw [List.foldl_cons] at *
    rw [hval, matAdd_getD hx hw g i hg hi]
    simp
    ring

theorem allReduce_getD (ws : List (List (List ℚ))) (m k g i : Nat)
    (hne : ws ≠ []) (hshape : ∀ w ∈ ws, MatShape w m k)
    (hg : g < m) (hi : i < k) :
    MatShape (allReduce ws) m k ∧
    ((allReduce ws).getD g []).getD i 0 =
      (ws.map (fun w => (w.getD g []).getD i 0)).sum := by
  match ws, hne with
  | x :: rest, _ =>
    have hx : MatShape x m k := hshape x (by simp)
    have hrest : ∀ v ∈ rest, MatShape v m k := fun v hv => hshape v (by simp [hv])
    obtain ⟨hsh, hval⟩ := foldl_matAdd_spec rest x m k hx hrest g i hg hi
    refine ⟨hsh, ?_⟩
    rw [allReduce, hval]
    simp

theorem emaBlend_getD (d : ℚ) {pm cm : List (List ℚ)} {m k : Nat}
    (hp : MatShape pm m k) (hc : MatShape cm m k) (g i : Nat) (hg : g < m) (hi : i < k) :
    ((emaBlend d pm cm).getD g []).getD i 0 =
      d * ((cm.getD g []).getD i 0) + (1 - d) * ((pm.getD g []).getD i 0) := by
  obtain ⟨hal, har⟩ := hp
  obtain ⟨hbl, hbr⟩ := hc
  have hga : g < pm.length := by omega
  have hgb : g < cm.length := by omega
  have hlen : g < (emaBlend d pm cm).length := by
    simp only [emaBlend]
    rw [List.length_zipWith, hal, hbl, inf_idem]; omega
  rw [List.getD_eq_getElem _ _ hlen, List.getD_eq_getElem _ _ hga, List.getD_eq_getElem _ _ hgb]
  simp only [emaBlend]
  rw [List.getElem_zipWith]
  have hia : i < pm[g].length := by rw [har _ (List.getElem_mem _)]; omega
  have hib : i < cm[g].length := by rw [hbr _ (List.getElem_mem _)]; omega
  have hiz : i < (List.zipWith (fun p c => d * c + (1 - d) * p) pm[g] cm[g]).length := by
    rw [List.length_zipWith]; omega
  rw [List.getD_eq_getElem _ _ hiz, List.getD_eq_getElem _ _ hia, List.getD_eq_getElem _ _ hib]
  rw [List.getElem_zipWith]

/-- C6: after a frequency update (`forward`) with decay `d = s.decay`, the
stored EMA at every level, group and entry equals `d·c + (1-d)·p`, where `c`
is the per-entry batch count summed across all workers and `p` the prior EMA
value.  The edge cases `d = 0` (value stays `p`) and `d = 1` (value becomes
`c`) are instances of the formula. -/
theorem claim_C6_ema_update (s : EntropyCoder) (counts : List (List (List (List ℚ))))
    (lv g i m k : Nat)
    (hlv : lv < s.freqEMA.length) (hlvc : lv < counts.length)
    (hshape : MatShape (s.freqEMA.getD lv []) m k)
    (hcne : counts.getD lv [] ≠ [])
    (hcshape : ∀ w ∈ counts.getD lv [], MatShape w m k)
    (hg : g < m) (hi : i < k) :
    (((s.forward counts).freqEMA.getD lv []).getD g []).getD i 0 =
      s.decay * ((counts.getD lv []).map (fun w => (w.getD g []).getD i 0)).sum
        + (1 - s.decay) * (((s.freqEMA.getD lv []).getD g []).getD i 0) := by
  obtain ⟨hra, hval⟩ := allReduce_getD (counts.getD lv []) m k g i hcne hcshape hg hi
  have h1 : ((s.forward counts).freqEMA.getD lv []) =
      emaBlend s.decay (s.freqEMA.getD lv []) (allReduce (counts.getD lv [])) := by
    unfold EntropyCoder.forward
    dsimp only
    rw [List.getD_eq_getElem _ _ (by rw [List.length_mapIdx]; exact hlv)]
    rw [List.getElem_mapIdx, List.getElem?_eq_getElem hlvc]
    dsimp only
    rw [List.getD_eq_getElem _ _ hlv, List.getD_eq_getElem _ _ hlvc]
  rw [h1, emaBlend_getD s.decay hshape hra g i hg hi, hval]

/-- Witness for C6: one level, two workers with counts 3 and 4, prior EMA 1,
decay 1/2. -/
theorem claim_C6_witness :
    ((((mkEntropyCoder 1 [1] (1 / 2)).forward [[[[3]], [[4]]]]).freqEMA.getD 0 []).getD 0 []).getD 0 0 =
      (mkEntropyCoder 1 [1] (1 / 2)).decay *
          ((([[[(3 : ℚ)]], [[4]]] : List (List (List ℚ))).map
            (fun w => (w.getD 0 []).getD 0 0)).sum)
        + (1 - (mkEntropyCoder 1 [1] (1 / 2)).decay) *
          ((((mkEntropyCoder 1 [1] (1 / 2)).freqEMA.getD 0 []).getD 0 []).getD 0 0) := by
  have h := claim_C6_ema_update (mkEntropyCoder 1 [1] (1 / 2)) [[[[3]], [[4]]]] 0 0 0 1 1
    (by simp [mkEntropyCoder]) (by simp)
    (by constructor <;> simp [mkEntropyCoder])
    (by simp) (by intro w hw; fin_cases hw <;> exact ⟨by simp, by intro r hr; fin_cases hr; simp⟩)
    (by omega) (by omega)
  simpa using h

/-! ## Claim C10 -/

theorem checkShapeLoop_error (l : List Tensor4) : ∀ (n m : Nat), 1 ≤ n →
    (∃ c ∈ l, dim0 c ≠ n ∨ dim1 c ≠ m) →
    ∃ msg, checkShapeLoop n m l = .error msg := by
  induction l with
  | nil => intro n m _ hex; obtain ⟨c, hc, _⟩ := hex; exact absurd hc (by simp)
  | cons c0 rest ih =>
    intro n m hn hex
    unfold checkShapeLoop
    rw [if_neg (by omega)]
    by_cases hm : m ≠ dim1 c0
    · exact ⟨_, by rw [if_pos hm]⟩
    · rw [if_neg hm]
      by_cases hd : n ≠ dim0 c0
      · exact ⟨_, by rw [if_pos hd]⟩
      · rw [if_neg hd]
        push_neg at hm hd
        apply ih n m hn
        obtain ⟨c, hc, hbad⟩ := hex
        rcases List.mem_cons.mp hc with rfl | hmem
        · rcases hbad with h1 | h1
          · exact absurd hd.symm h1
          · exact absurd hm.symm h1
        · exact ⟨c, hmem, hbad⟩

/-- C10: `compress` fails fast with an error — producing no encoded output —
whenever the input list of codes is empty, or the first level's batch
dimension is below 1, or any level's batch dimension `n` or group dimension
`m` differs from the first level's. -/
theorem claim_C10_fail_fast (s : EntropyCoder) (codes : List Tensor4)
    (hbad : codes = [] ∨ dim0 (codes.headD []) < 1 ∨
      ∃ c ∈ codes, dim0 c ≠ dim0 (codes.headD []) ∨ dim1 c ≠ dim1 (codes.headD [])) :
    ∃ msg, s.compress codes = .error msg := by
  have herr : ∃ msg, checkShape codes = .error msg := by
    match codes, hbad with
    | [], _ => exact ⟨_, rfl⟩
    | c0 :: rest, hbad =>
      rcases hbad with h | h | h
      · exact absurd h (by simp)
      · refine ⟨"Now n = 0.", ?_⟩
        unfold checkShape checkShapeLoop
        rw [if_pos (by simpa using h)]
      · rcases Nat.lt_or_ge (dim0 c0) 1 with hn | hn
        · refine ⟨"Now n = 0.", ?_⟩
          unfold checkShape checkShapeLoop
          rw [if_pos (by simpa using hn)]
        · unfold checkShape
          apply checkShapeLoop_error _ _ _ hn
          simpa using h
  obtain ⟨msg, hmsg⟩ := herr
  refine ⟨msg, ?_⟩
  unfold EntropyCoder.compress
  rw [hmsg]

/-- Witness for C10: the empty code list is rejected. -/
theorem claim_C10_witness :
    ∃ msg, (mkEntropyCoder 1 [1] (1 / 2)).compress [] = .error msg :=
  claim_C10_fail_fast (mkEntropyCoder 1 [1] (1 / 2)) [] (Or.inl rfl)

/-! ## Claim C9 -/

/-- C9: multi-level decode processes levels in the reverse of the encoder
pipeline order, starting from the coarsest (last encoder stage) level.  For a
2-level `UMGMQuantizer` (decoder 0 = finest, decoder 1 = coarsest, which has
no side head), decode folds the reversed code list, producing the coarsest
level's restored output fed through the finer level's side head; with
identity heads the reconstruction is exactly
`dequant(level1) + dequant(level0)`.  The `ResidualBackwardQuantizer`
variant (whose `encode` emits codes coarsest level first) likewise starts
from the coarsest level and adds the finer dequantized contribution. -/
theorem claim_C9_decode_order {C V : Type} [AddCommMonoid V]
    (deq0 deq1 : C → V) (h0 h1 : V → V) (s0 : V → V) (r0 r1 : V → V)
    (dec0 dec1 : V → V) (dq0 dq1 : C → V) (c0 c1 cc cf : C) :
    umgmDecode [⟨deq0, h0, some s0, r0⟩, ⟨deq1, h1, none, r1⟩] [c0, c1] =
      some (r0 (h0 (deq0 c0) + s0 (r1 (h1 (deq1 c1))))) ∧
    umgmDecode [⟨deq0, id, some id, id⟩, ⟨deq1, id, none, id⟩] [c0, c1] =
      some (deq1 c1 + deq0 c0) ∧
    residualBackwardDecode [dec0, dec1] [dq0, dq1] [cc, cf] =
      some (dec0 (dq0 cf + dec1 (dq1 cc))) ∧
    residualBackwardDecode [id, id] [dq0, dq1] [cc, cf] =
      some (dq1 cc + dq0 cf) := by
  refine ⟨rfl, ?_, rfl, ?_⟩
  · rw [show umgmDecode [⟨deq0, id, some id, id⟩, ⟨deq1, id, none, id⟩] [c0, c1] =
      some (deq0 c0 + deq1 c1) from rfl, add_comm (deq0 c0)]
  · rw [show residualBackwardDecode [id, id] [dq0, dq1] [cc, cf] =
      some (dq0 cf + dq1 cc) from rfl, add_comm (dq0 cf)]

/-! ## Helper lemmas: mask assignment and argsort -/

theorem countTrue_map (p : α → Bool) (l : List α) :
    countTrue (l.map p) = l.countP p := by
  unfold countTrue
  rw [List.count_eq_countP, List.countP_map]
  congr 1
  funext x
  simp [Function.comp]

theorem maskAssign_length {α : Type} : ∀ (xs : List α) (bs : List Bool) (vals : List α),
    (maskAssign xs bs vals).length = xs.length
  | [], _, _ => by unfold maskAssign; rfl
  | x :: xs, [], _ => by unfold maskAssign; rfl
  | x :: xs, b :: bs, vals => by
    unfold maskAssign
    split
    · match vals with
      | [] => simpa using maskAssign_length xs bs []
      | v :: vs => simpa using maskAssign_length xs bs vs
    · simpa using maskAssign_length xs bs vals

theorem maskAssign_getD_false {α : Type} (d : α) :
    ∀ (xs : List α) (bs : List Bool) (vals : List α) (j : Nat),
    bs.getD j false = false → (maskAssign xs bs vals).getD j d = xs.getD j d
  | [], _, _, _, _ => by unfold maskAssign; rfl
  | x :: xs, [], _, _, _ => by unfold maskAssign; rfl
  | x :: xs, b :: bs, vals, 0, h => by
    unfold maskAssign
    have hb : b = false := by simpa using h
    rw [hb]
    simp
  | x :: xs, b :: bs, vals, j + 1, h => by
    unfold maskAssign
    have h2 : bs.getD j false = false := by simpa using h
    split
    · match vals with
      | [] => simpa using maskAssign_getD_false d xs bs [] j h2
      | v :: vs => simpa using maskAssign_getD_false d xs bs vs j h2
    · simpa using maskAssign_getD_false d xs bs vals j h2

theorem maskAssign_mem {α : Type} : ∀ (xs : List α) (bs : List Bool) (vals : List α),
    ∀ y ∈ maskAssign xs bs vals, y ∈ xs ∨ y ∈ vals
  | [], _, _ => by unfold maskAssign; simp
  | _ :: _, [], _ => by
    unfold maskAssign
    intro y hy
    exact Or.inl hy
  | x :: xs, b :: bs, vals => by
    unfold maskAssign
    split
    · match vals with
      | [] =>
        intro y hy
        rcases List.mem_cons.mp hy with rfl | hy2
        · simp
        · rcases maskAssign_mem xs bs [] y hy2 with h | h
          · exact Or.inl (by simp [h])
          · exact Or.inr h
      | v :: vs =>
        intro y hy
        rcases List.mem_cons.mp hy with rfl | hy2
        · exact Or.inr (by simp)
        · rcases maskAssign_mem xs bs vs y hy2 with h | h
          · exact Or.inl (by simp [h])
          · exact Or.inr (by simp [h])
    · intro y hy
      rcases List.mem_cons.mp hy with rfl | hy2
      · exact Or.inl (by simp)
      · rcases maskAssign_mem xs bs vals y hy2 with h | h
        · exact Or.inl (by simp [h])
        · exact Or.inr h

theorem insertDesc_mem (xs : List ℚ) (i : Nat) :
    ∀ (l : List Nat) (j : Nat), j ∈ insertDesc xs i l → j = i ∨ j ∈ l
  | [], j, h => by
    unfold insertDesc at h
    simpa using h
  | a :: l, j, h => by
    unfold insertDesc at h
    split at h
    · rcases List.mem_cons.mp h with rfl | h2
      · exact Or.inl rfl
      · exact Or.inr h2
    · rcases List.mem_cons.mp h with rfl | h2
      · exact Or.inr (by simp)
      · rcases insertDesc_mem xs i l j h2 with h3 | h3
        · exact Or.inl h3
        · exact Or.inr (by simp [h3])

theorem insertDesc_length (xs : List ℚ) (i : Nat) :
    ∀ (l : List Nat), (insertDesc xs i l).length = l.length + 1
  | [] => by unfold insertDesc; rfl
  | a :: l => by
    unfold insertDesc
    split
    · simp
    · have h := insertDesc_length xs i l
      simp only [List.length_cons]
      omega

theorem sortIdxDesc_mem (xs : List ℚ) :
    ∀ (l : List Nat) (j : Nat), j ∈ sortIdxDesc xs l → j ∈ l
  | [], j, h => by unfold sortIdxDesc at h; simpa using h
  | a :: l, j, h => by
    unfold sortIdxDesc at h
    rcases insertDesc_mem xs a _ j h with rfl | h2
    · simp
    · exact List.mem_cons_of_mem _ (sortIdxDesc_mem xs l j h2)

theorem sortIdxDesc_length (xs : List ℚ) :
    ∀ (l : List Nat), (sortIdxDesc xs l).length = l.length
  | [] => rfl
  | a :: l => by
    unfold sortIdxDesc
    rw [insertDesc_length, sortIdxDesc_length xs l]
    simp

theorem argsortDesc_mem (xs : List ℚ) : ∀ j ∈ argsortDesc xs, j < xs.length := by
  intro j hj
  have h := sortIdxDesc_mem xs (List.range xs.length) j hj
  simpa using h

theorem argsortDesc_length (xs : List ℚ) : (argsortDesc xs).length = xs.length := by
  unfold argsortDesc
  rw [sortIdxDesc_length]
  simp

theorem scatterMask_length (total : Nat) (maskIdx : List Nat) :
    (scatterMask total maskIdx).length = total := by
  unfold scatterMask
  simp

theorem scatterMask_mem (total : Nat) (maskIdx : List Nat) :
    ∀ v ∈ scatterMask total maskIdx, v = 0 ∨ v = -1 := by
  intro v hv
  unfold scatterMask at hv
  rw [List.mem_map] at hv
  obtain ⟨i, _, rfl⟩ := hv
  split
  · exact Or.inr rfl
  · exact Or.inl rfl

theorem scatterMask_countP_zero (total : Nat) (maskIdx : List Nat)
    (hsub : ∀ x ∈ maskIdx, x < total) (hnd : maskIdx.Nodup) :
    (scatterMask total maskIdx).countP (fun v => decide (v = 0)) =
      total - maskIdx.length := by
  unfold scatterMask
  rw [List.countP_map]
  have hco2 : (List.range total).countP
      ((fun v : ℚ => decide (v = 0)) ∘ (fun i => if i ∈ maskIdx then (-1 : ℚ) else 0)) =
      (List.range total).countP (fun i => !(decide (i ∈ maskIdx))) := by
    apply List.countP_congr
    intro i _
    by_cases h : i ∈ maskIdx <;> simp [h, Function.comp]
  rw [hco2]
  have hmem : (List.range total).countP (fun i => decide (i ∈ maskIdx)) = maskIdx.length := by
    rw [List.countP_eq_length_filter]
    have hperm : ((List.range total).filter (fun i => decide (i ∈ maskIdx))).Perm maskIdx := by
      rw [List.perm_ext_iff_of_nodup ((List.nodup_range total).filter _) hnd]
      intro a
      simp only [List.mem_filter, List.mem_range, decide_eq_true_eq]
      constructor
      · exact fun h => h.2
      · exact fun h => ⟨hsub a h, h⟩
    exact hperm.length_eq
  have hsplit := List.length_eq_countP_add_countP (fun i => decide (i ∈ maskIdx)) (List.range total)
  rw [List.length_range] at hsplit
  have hco : (List.range total).countP (fun i => !(decide (i ∈ maskIdx))) =
      (List.range total).countP (fun a => decide ¬(decide (a ∈ maskIdx) = true)) := by
    apply List.countP_congr
    intro a _
    by_cases h : a ∈ maskIdx <;> simp [h]
  omega

theorem countTrue_after_scatter (eps : ℚ) (h0 : 0 < eps) (h1 : eps ≤ 1) :
    ∀ (xs : List ℚ) (bs : List Bool) (vals : List ℚ),
    bs.length = xs.length →
    vals.length = countTrue bs →
    (∀ j, j < xs.length → bs.getD j false = false → ¬(xs.getD j 0 < eps)) →
    (∀ v ∈ vals, v = 0 ∨ v = -1) →
    countTrue ((maskAssign xs bs vals).map (fun x => decide (x < eps) && decide (-eps < x)))
      = vals.countP (fun v => decide (v = 0))
  | [], bs, vals, hl, hv, _, _ => by
    have hb : bs = [] := by
      cases bs with
      | nil => rfl
      | cons b bs2 => simp at hl
    subst hb
    have hv2 : vals = [] := List.length_eq_zero.mp (by simpa [countTrue] using hv)
    subst hv2
    rfl
  | x :: xs, bs, vals, hl, hv, hfalse, hvals => by
    cases bs with
    | nil => simp at hl
    | cons b bs =>
      cases b with
      | true =>
        have hvlen : vals.length = countTrue bs + 1 := by
          simpa [countTrue] using hv
        cases vals with
        | nil => simp at hvlen
        | cons v vs =>
          unfold maskAssign
          rw [if_pos rfl]
          rw [List.map_cons]
          have hrec := countTrue_after_scatter eps h0 h1 xs bs vs
            (by simpa using hl)
            (by simpa [countTrue] using hvlen)
            (fun j hj hb => hfalse (j + 1) (by simp only [List.length_cons]; omega)
              (by simpa using hb))
            (fun w hw => hvals w (by simp [hw]))
          rcases hvals v (by simp) with rfl | rfl
          · rw [countTrue, List.count_cons, List.countP_cons]
            rw [countTrue] at hrec
            rw [hrec]
            have hp : (decide ((0 : ℚ) < eps) && decide (-eps < (0 : ℚ))) = true := by
              simp only [Bool.and_eq_true, decide_eq_true_eq]
              exact ⟨h0, by linarith⟩
            rw [hp]
            norm_num
          · rw [countTrue, List.count_cons, List.countP_cons]
            rw [countTrue] at hrec
            rw [hrec]
            have hp : (decide ((-1 : ℚ) < eps) && decide (-eps < (-1 : ℚ))) = false := by
              have hne : ¬(-eps < (-1 : ℚ)) := by linarith
              simp [hne]
            rw [hp]
            norm_num
      | false =>
        unfold maskAssign
        rw [if_neg (by simp)]
        rw [List.map_cons]
        have hx : ¬(x < eps) := by
          have h2 := hfalse 0 (by simp) (by simp)
          simpa using h2
        have hrec := countTrue_after_scatter eps h0 h1 xs bs vals
          (by simpa using hl)
          (by simpa [countTrue] using hv)
          (fun j hj hb => hfalse (j + 1) (by simp only [List.length_cons]; omega)
            (by simpa using hb))
          hvals
        have hp : (decide (x < eps) && decide (-eps < x)) = false := by
          simp [hx]
        rw [countTrue, List.count_cons]
        rw [countTrue] at hrec
        rw [hrec, hp]
        norm_num

/-! ## Claim C8 -/

/-- C8 amended: when more than `⌊K/2⌋` of a group's entries are never
assigned (usage below ε), the code randomly protects all but `⌊K/2⌋` of the
never-assigned entries — the recomputed replacement set has exactly `⌊K/2⌋`
entries, not half of the never-assigned ones — and those `⌊K/2⌋` entries
(a subset of the never-assigned ones) are overwritten, in index order, by the
embeddings of the entries ranked descending by the masked usage; every other
entry keeps its exact value. -/
theorem claim_C8_amended (eps : ℚ) (h0 : 0 < eps) (h1 : eps ≤ 1)
    (k : Nat) (perm : List Nat) (cg : List (List ℚ)) (fg : List ℚ)
    (hperm : perm.Perm (List.range (countTrue (neverAssignedMask eps fg))))
    (hcap : countTrue (neverAssignedMask eps fg) > k / 2) :
    countTrue (neverAssignedMask2 eps k perm fg) = k / 2 ∧
    (∀ j, (neverAssignedMask2 eps k perm fg).getD j false = true →
      (neverAssignedMask eps fg).getD j false = true) ∧
    reassignGroup eps k perm cg fg =
      maskAssign cg (neverAssignedMask2 eps k perm fg)
        (((argsortDesc (cappedFreq eps k perm fg)).map (fun i => cg.getD i [])).take (k / 2)) ∧
    (∀ j, (neverAssignedMask2 eps k perm fg).getD j false = false →
      (reassignGroup eps k perm cg fg).getD j [] = cg.getD j []) := by
  have htot1 : (neverAssignedMask eps fg).length = fg.length := by
    unfold neverAssignedMask; simp
  have hpermlen : perm.length = countTrue (neverAssignedMask eps fg) := by
    simpa using hperm.length_eq
  have hnd : perm.Nodup := hperm.symm.nodup (List.nodup_range _)
  have hdropnd : (perm.drop (k / 2)).Nodup := (List.drop_sublist _ _).nodup hnd
  have hdropsub : ∀ x ∈ perm.drop (k / 2), x < countTrue (neverAssignedMask eps fg) := by
    intro x hx
    have hxp : x ∈ perm := List.mem_of_mem_drop hx
    have hxr := hperm.mem_iff.mp hxp
    simpa using hxr
  have h1count : countTrue (neverAssignedMask2 eps k perm fg) =
      (scatterMask (countTrue (neverAssignedMask eps fg)) (perm.drop (k / 2))).countP
        (fun v => decide (v = 0)) := by
    unfold neverAssignedMask2 cappedFreq
    apply countTrue_after_scatter eps h0 h1
    · exact htot1
    · exact scatterMask_length _ _
    · intro j hj hb
      unfold neverAssignedMask at hb
      rw [getD_map_of_lt _ _ j false 0 hj] at hb
      simpa using hb
    · exact scatterMask_mem _ _
  rw [scatterMask_countP_zero _ _ hdropsub hdropnd] at h1count
  have hdl : (perm.drop (k / 2)).length = countTrue (neverAssignedMask eps fg) - k / 2 := by
    rw [List.length_drop, hpermlen]
  have hc1 : countTrue (neverAssignedMask2 eps k perm fg) = k / 2 := by
    rw [h1count, hdl]
    omega
  have hc2 : ∀ j, (neverAssignedMask2 eps k perm fg).getD j false = true →
      (neverAssignedMask eps fg).getD j false = true := by
    intro j hj
    by_contra hne
    have hb : (neverAssignedMask eps fg).getD j false = false := by
      cases h : (neverAssignedMask eps fg).getD j false
      · rfl
      · exact absurd h hne
    rcases Nat.lt_or_ge j fg.length with hlt | hge
    · have hfreq2 : (cappedFreq eps k perm fg).getD j 0 = fg.getD j 0 :=
        maskAssign_getD_false 0 _ _ _ j hb
      have hx : ¬(fg.getD j 0 < eps) := by
        unfold neverAssignedMask at hb
        rw [getD_map_of_lt _ _ j false 0 hlt] at hb
        simpa using hb
      unfold neverAssignedMask2 at hj
      have hlt2 : j < (cappedFreq eps k perm fg).length := by
        unfold cappedFreq
        rw [maskAssign_length]
        exact hlt
      rw [getD_map_of_lt _ _ j false 0 hlt2, hfreq2] at hj
      simp only [Bool.and_eq_true, decide_eq_true_eq] at hj
      exact hx hj.1
    · unfold neverAssignedMask2 at hj
      rw [List.getD_eq_default] at hj
      · exact absurd hj (by simp)
      · unfold cappedFreq
        rw [List.length_map, maskAssign_length]
        exact hge
  have hstep : reassignGroup eps k perm cg fg =
      maskAssign cg (neverAssignedMask2 eps k perm fg)
        (((argsortDesc (cappedFreq eps k perm fg)).map (fun i => cg.getD i [])).take
          (countTrue (neverAssignedMask2 eps k perm fg))) := by
    unfold reassignGroup neverAssignedMask2 cappedFreq neverAssignedMask
    dsimp only
    rw [if_pos (by unfold neverAssignedMask at hcap; exact hcap)]
  have hc3 : reassignGroup eps k perm cg fg =
      maskAssign cg (neverAssignedMask2 eps k perm fg)
        (((argsortDesc (cappedFreq eps k perm fg)).map (fun i => cg.getD i [])).take (k / 2)) := by
    rw [hstep, hc1]
  refine ⟨hc1, hc2, hc3, fun j hj => ?_⟩
  rw [hc3]
  exact maskAssign_getD_false [] _ _ _ j hj

/-- C8 counterexample: a group with K = 7 entries, usages `[5, 4, 3, 0, 0, 0, 0]`
(so 4 of 7 entries are never assigned, more than half) and protection draw
`randperm = [0, 1, 2, 3]`.  The code overwrites three of the four
never-assigned entries (slots 3, 4, 5, with the embeddings of the three
most-used entries) and protects only one (slot 6) — not half of the
never-assigned entries (two), as the claim states. -/
theorem claim_C8_counterexample :
    reassignGroup (1 / 2) 7 [0, 1, 2, 3]
        [[0], [1], [2], [3], [4], [5], [6]] [5, 4, 3, 0, 0, 0, 0] =
      [[0], [1], [2], [0], [1], [2], [6]] ∧
    countTrue (neverAssignedMask (1 / 2) [5, 4, 3, 0, 0, 0, 0]) = 4 ∧
    countTrue (((reassignGroup (1 / 2) 7 [0, 1, 2, 3]
        [[0], [1], [2], [3], [4], [5], [6]] [5, 4, 3, 0, 0, 0, 0]).zip
          [[(0 : ℚ)], [1], [2], [3], [4], [5], [6]]).map
        (fun p => decide (p.1 ≠ p.2))) = 3 ∧
    (3 : Nat) ≠ 4 / 2 := by
  have hres : reassignGroup (1 / 2) 7 [0, 1, 2, 3]
      [[0], [1], [2], [3], [4], [5], [6]] [5, 4, 3, 0, 0, 0, 0] =
      [[0], [1], [2], [0], [1], [2], [6]] := by
    norm_num [reassignGroup, neverAssignedMask, neverAssignedMask2, cappedFreq,
      countTrue, maskAssign, scatterMask, argsortDesc,
      sortIdxDesc, insertDesc, List.getD, List.range_succ]
  refine ⟨hres, ?_, ?_, by decide⟩
  · norm_num [neverAssignedMask, countTrue]
  · rw [hres]
    norm_num [countTrue]

/-- Witness for the amended C8 at a concrete capped group (K = 7, four
never-assigned entries, draw `[0, 1, 2, 3]`). -/
theorem claim_C8_witness :
    countTrue (neverAssignedMask2 (1 / 2) 7 [0, 1, 2, 3] [5, 4, 3, 0, 0, 0, 0]) = 7 / 2 ∧
    (∀ j, (neverAssignedMask2 (1 / 2) 7 [0, 1, 2, 3] [5, 4, 3, 0, 0, 0, 0]).getD j false = true →
      (neverAssignedMask (1 / 2) [5, 4, 3, 0, 0, 0, 0]).getD j false = true) ∧
    reassignGroup (1 / 2) 7 [0, 1, 2, 3] [[0], [1], [2], [3], [4], [5], [6]]
        [5, 4, 3, 0, 0, 0, 0] =
      maskAssign [[0], [1], [2], [3], [4], [5], [6]]
        (neverAssignedMask2 (1 / 2) 7 [0, 1, 2, 3] [5, 4, 3, 0, 0, 0, 0])
        (((argsortDesc (cappedFreq (1 / 2) 7 [0, 1, 2, 3] [5, 4, 3, 0, 0, 0, 0])).map
          (fun i => ([[0], [1], [2], [3], [4], [5], [6]] : List (List ℚ)).getD i [])).take (7 / 2)) ∧
    (∀ j, (neverAssignedMask2 (1 / 2) 7 [0, 1, 2, 3] [5, 4, 3, 0, 0, 0, 0]).getD j false = false →
      (reassignGroup (1 / 2) 7 [0, 1, 2, 3] [[0], [1], [2], [3], [4], [5], [6]]
        [5, 4, 3, 0, 0, 0, 0]).getD j [] =
        ([[0], [1], [2], [3], [4], [5], [6]] : List (List ℚ)).getD j []) := by
  have hc : countTrue (neverAssignedMask (1 / 2) [5, 4, 3, 0, 0, 0, 0]) = 4 := by
    norm_num [neverAssignedMask, countTrue]
  exact claim_C8_amended (1 / 2) (by norm_num) (by norm_num) 7 [0, 1, 2, 3]
    [[0], [1], [2], [3], [4], [5], [6]] [5, 4, 3, 0, 0, 0, 0]
    (by rw [hc]; decide) (by rw [hc]; decide)

/-! ## Claim C7 -/

theorem cappedFreq_length (eps : ℚ) (k : Nat) (perm : List Nat) (fg : List ℚ) :
    (cappedFreq eps k perm fg).length = fg.length := by
  unfold cappedFreq
  rw [maskAssign_length]

theorem reassignGroup_rows (cg : List (List ℚ)) (bs : List Bool) (X : List ℚ) (t d : Nat)
    (hrows : ∀ row ∈ cg, row.length = d) (hX : X.length = cg.length) :
    ∀ row ∈ maskAssign cg bs (((argsortDesc X).map (fun i => cg.getD i [])).take t),
      row.length = d := by
  intro row hrow
  rcases maskAssign_mem _ _ _ row hrow with h | h
  · exact hrows row h
  · have h2 := List.mem_of_mem_take h
    rw [List.mem_map] at h2
    obtain ⟨i, hi, rfl⟩ := h2
    have hlt : i < cg.length := by rw [← hX]; exact argsortDesc_mem X i hi
    rw [List.getD_eq_getElem _ _ hlt]
    exact hrows _ (List.getElem_mem hlt)

theorem reassignGroup_shape (eps : ℚ) (k0 : Nat) (perm : List Nat)
    (cg : List (List ℚ)) (fg : List ℚ) (d : Nat)
    (hrows : ∀ row ∈ cg, row.length = d) (hfg : fg.length = cg.length) :
    (reassignGroup eps k0 perm cg fg).length = cg.length ∧
    ∀ row ∈ reassignGroup eps k0 perm cg fg, row.length = d := by
  unfold reassignGroup
  dsimp only
  constructor
  · rw [maskAssign_length]
  · split
    · exact reassignGroup_rows cg _ _ _ d hrows (by rw [cappedFreq_length]; exact hfg)
    · exact reassignGroup_rows cg _ _ _ d hrows hfg

theorem reassignGroup_preserve (eps : ℚ) (k0 : Nat) (perm : List Nat)
    (cg : List (List ℚ)) (fg : List ℚ) (j : Nat)
    (hj : ¬(fg.getD j 0 < eps)) (hjlen : j < fg.length) :
    (reassignGroup eps k0 perm cg fg).getD j [] = cg.getD j [] := by
  have hnever1 : (neverAssignedMask eps fg).getD j false = false := by
    unfold neverAssignedMask
    rw [getD_map_of_lt _ _ j false 0 hjlen]
    simpa using hj
  unfold reassignGroup
  dsimp only
  split
  · apply maskAssign_getD_false
    unfold neverAssignedMask2
    rw [getD_map_of_lt _ _ j false 0 (by rw [cappedFreq_length]; exact hjlen)]
    have hcf : (cappedFreq eps k0 perm fg).getD j 0 = fg.getD j 0 :=
      maskAssign_getD_false 0 _ _ _ j hnever1
    rw [hcf, decide_eq_false hj, Bool.false_and]
  · exact maskAssign_getD_false [] _ _ _ j hnever1

theorem codebookDiff_length (newBook oldBook : List (List (List ℚ))) (m k : Nat)
    (hn : newBook.length = m) (ho : oldBook.length = m)
    (hng : ∀ g ∈ newBook, g.length = k) (hog : ∀ g ∈ oldBook, g.length = k) :
    (codebookDiff newBook oldBook).length = m * k := by
  unfold codebookDiff
  rw [List.length_flatMap]
  have hzl : (newBook.zip oldBook).length = m := by
    rw [List.length_zip, hn, ho, inf_idem]
  have hall : ∀ p ∈ newBook.zip oldBook,
      ((p.1.zip p.2).map (fun q => decide (sqDist q.1 q.2 > 1 / 10000))).length = k := by
    intro p hp
    rw [List.length_map, List.length_zip]
    rw [hng p.1 (List.of_mem_zip hp).1, hog p.2 (List.of_mem_zip hp).2, inf_idem]
  calc ((newBook.zip oldBook).map
      (fun p => ((p.1.zip p.2).map (fun q => decide (sqDist q.1 q.2 > 1 / 10000))).length)).sum
      = ((newBook.zip oldBook).map (fun _ => k)).sum := by
        apply congrArg
        exact List.map_congr_left hall
    _ = m * k := by
        rw [List.map_const', List.sum_replicate, hzl, smul_eq_mul]

/-- C7 amended: after `reAssignCodebook` the codebook shape (M, K, D) is
unchanged, and only entries whose prior usage was below the near-zero
threshold ε are modified (every other entry keeps its exact value).  The
returned flattened diff is the boolean mark of entries whose embedding moved
by squared Euclidean distance greater than 1e-4, and the reported proportion
is the fraction of marked entries; an entry overwritten with a nearly
identical embedding (within the 1e-4 tolerance) changes value but is not
counted (see the counterexample). -/
theorem claim_C7_amended (eps : ℚ) (perms : Nat → List Nat)
    (cb : List (List (List ℚ))) (freq : List (List ℚ)) (m k d : Nat)
    (hcb : CbShape cb m k d) (hfl : freq.length = m)
    (hfr : ∀ r ∈ freq, r.length = k) :
    CbShape (reAssignCodebook eps perms cb freq).1 m k d ∧
    (∀ g j, g < m → j < k → eps ≤ (freq.getD g []).getD j 0 →
      ((reAssignCodebook eps perms cb freq).1.getD g []).getD j [] =
        (cb.getD g []).getD j []) ∧
    (reAssignCodebook eps perms cb freq).2 =
      codebookDiff (reAssignCodebook eps perms cb freq).1 cb ∧
    (reAssignCodebook eps perms cb freq).2.length = m * k ∧
    boolMean (reAssignCodebook eps perms cb freq).2 =
      (countTrue ((reAssignCodebook eps perms cb freq).2) : ℚ) / ((m * k : Nat) : ℚ) := by
  obtain ⟨hcbl, hcbg⟩ := hcb
  have hnew : ∀ g, g < m → (reAssignCodebook eps perms cb freq).1.getD g [] =
      reassignGroup eps ((cb.headD []).length) (perms g) (cb.getD g []) (freq.getD g []) := by
    intro g hg
    unfold reAssignCodebook
    dsimp only
    rw [List.getD_eq_getElem _ _ (by rw [List.length_mapIdx]; omega)]
    rw [List.getElem_mapIdx]
    rw [List.getElem?_eq_getElem (by omega : g < freq.length)]
    dsimp only
    rw [List.getD_eq_getElem _ _ (show g < cb.length by omega),
      List.getD_eq_getElem _ _ (show g < freq.length by omega)]
  have hshape : CbShape (reAssignCodebook eps perms cb freq).1 m k d := by
    refine ⟨?_, ?_⟩
    · unfold reAssignCodebook
      dsimp only
      rw [List.length_mapIdx]
      exact hcbl
    · intro gl hgl
      rw [List.mem_iff_getElem] at hgl
      obtain ⟨g, hg, rfl⟩ := hgl
      have hglen : g < m := by
        have h2 := hg
        unfold reAssignCodebook at h2
        dsimp only at h2
        rw [List.length_mapIdx] at h2
        omega
      have hgd : (reAssignCodebook eps perms cb freq).1[g] =
          (reAssignCodebook eps perms cb freq).1.getD g [] := by
        rw [List.getD_eq_getElem _ _ hg]
      rw [hgd, hnew g hglen]
      have hgcb : g < cb.length := by omega
      have hcg := hcbg _ (List.getElem_mem hgcb)
      have hfg := hfr _ (List.getElem_mem (show g < freq.length by omega))
      have hcgd : cb.getD g [] = cb[g] := List.getD_eq_getElem _ _ hgcb
      have hfgd : freq.getD g [] = freq[g] := List.getD_eq_getElem _ _ (by omega)
      obtain ⟨hlen2, hrows2⟩ := reassignGroup_shape eps ((cb.headD []).length) (perms g)
        (cb.getD g []) (freq.getD g []) d
        (by rw [hcgd]; exact hcg.2)
        (by rw [hcgd, hfgd, hfg, hcg.1])
      refine ⟨by rw [hlen2, hcgd, hcg.1], hrows2⟩
  refine ⟨hshape, ?_, ?_, ?_, ?_⟩
  · intro g j hg hj hge
    rw [hnew g hg]
    have hjlen : j < (freq.getD g []).length := by
      rw [List.getD_eq_getElem _ _ (show g < freq.length by omega)]
      rw [hfr _ (List.getElem_mem (show g < freq.length by omega))]
      omega
    exact reassignGroup_preserve eps _ (perms g) (cb.getD g []) (freq.getD g []) j
      (not_lt.mpr hge) hjlen
  · unfold reAssignCodebook
    dsimp only
  · have hdl : (reAssignCodebook eps perms cb freq).2 =
        codebookDiff (reAssignCodebook eps perms cb freq).1 cb := by
      unfold reAssignCodebook
      dsimp only
    rw [hdl]
    exact codebookDiff_length _ cb m k hshape.1 hcbl
      (fun g hgm => (hshape.2 g hgm).1) (fun g hgm => (hcbg g hgm).1)
  · have hdl2 : (reAssignCodebook eps perms cb freq).2.length = m * k := by
      have hdl : (reAssignCodebook eps perms cb freq).2 =
          codebookDiff (reAssignCodebook eps perms cb freq).1 cb := by
        unfold reAssignCodebook
        dsimp only
      rw [hdl]
      exact codebookDiff_length _ cb m k hshape.1 hcbl
        (fun g hgm => (hshape.2 g hgm).1) (fun g hgm => (hcbg g hgm).1)
    unfold boolMean
    rw [hdl2]

/-- C7 counterexample: one group with two entries of dimension 1, embeddings
`[0]` and `[3/1000]`, usages `[1, 0]` and threshold ε = 1e-6.  The dead entry
is overwritten with the most-used embedding `[0]`, so its stored value
actually changes (from `[3/1000]` to `[0]`), but the squared distance
9e-6 does not exceed the 1e-4 diff tolerance, so the reported proportion of
changed entries is 0, not the actual fraction 1/2. -/
theorem claim_C7_counterexample :
    ((reAssignCodebook (1 / 1000000) (fun _ => []) [[[0], [3 / 1000]]]
        [[1, 0]]).1.getD 0 []).getD 1 [] = [0] ∧
    (([[[(0 : ℚ)], [3 / 1000]]] : List (List (List ℚ))).getD 0 []).getD 1 [] = [3 / 1000] ∧
    ([(3 : ℚ) / 1000] : List ℚ) ≠ [0] ∧
    boolMean (reAssignCodebook (1 / 1000000) (fun _ => []) [[[0], [3 / 1000]]] [[1, 0]]).2 = 0 := by
  have hres : (reAssignCodebook (1 / 1000000) (fun _ => []) [[[0], [3 / 1000]]] [[1, 0]]) =
      ([[[0], [0]]], [false, false]) := by
    norm_num [reAssignCodebook, reassignGroup, neverAssignedMask, neverAssignedMask2,
      cappedFreq, countTrue, maskAssign, scatterMask, argsortDesc, sortIdxDesc,
      insertDesc, List.getD, List.range_succ, codebookDiff, sqDist, boolMean,
      List.mapIdx_cons, List.mapIdx_nil]
  rw [hres]
  refine ⟨by norm_num [List.getD], by norm_num [List.getD], by norm_num, ?_⟩
  norm_num [boolMean, countTrue]

/-- Witness for the amended C7 at a concrete one-group codebook. -/
theorem claim_C7_witness :
    CbShape (reAssignCodebook (1 / 2) (fun _ => []) [[[0], [1]]] [[1, 0]]).1 1 2 1 ∧
    (∀ g j, g < 1 → j < 2 → (1 / 2 : ℚ) ≤ (([[1, (0 : ℚ)]] : List (List ℚ)).getD g []).getD j 0 →
      ((reAssignCodebook (1 / 2) (fun _ => []) [[[0], [1]]] [[1, 0]]).1.getD g []).getD j [] =
        (([[[(0 : ℚ)], [1]]] : List (List (List ℚ))).getD g []).getD j []) ∧
    (reAssignCodebook (1 / 2) (fun _ => []) [[[0], [1]]] [[1, 0]]).2 =
      codebookDiff (reAssignCodebook (1 / 2) (fun _ => []) [[[0], [1]]] [[1, 0]]).1
        [[[0], [1]]] ∧
    (reAssignCodebook (1 / 2) (fun _ => []) [[[0], [1]]] [[1, 0]]).2.length = 1 * 2 ∧
    boolMean (reAssignCodebook (1 / 2) (fun _ => []) [[[0], [1]]] [[1, 0]]).2 =
      (countTrue ((reAssignCodebook (1 / 2) (fun _ => []) [[[0], [1]]] [[1, 0]]).2) : ℚ) /
        ((1 * 2 : Nat) : ℚ) :=
  claim_C7_amended (1 / 2) (fun _ => []) [[[0], [1]]] [[1, 0]] 1 2 1
    (by constructor
        · rfl
        · intro g hg
          fin_cases hg
          refine ⟨rfl, ?_⟩
          intro row hrow
          fin_cases hrow <;> rfl)
    rfl
    (by intro r hr; fin_cases hr; rfl)

/-! ## Claim C1: helper lemmas -/

theorem chunkN_cons (size n : Nat) (xs rest : List Int) (hlen : xs.length = size) :
    chunkN size (n + 1) (xs ++ rest) = xs :: chunkN size n rest := by
  have h1 : chunkN size (n + 1) (xs ++ rest) =
      (xs ++ rest).take size :: chunkN size n ((xs ++ rest).drop size) := rfl
  rw [h1, ← hlen, List.take_left, List.drop_left]

theorem chunkN_flatten_rows : ∀ (mat : List (List Int)) (h w : Nat),
    mat.length = h → (∀ row ∈ mat, row.length = w) →
    chunkN w h mat.flatten = mat
  | [], h, w, hl, _ => by
    subst hl
    rfl
  | row :: rest, h, w, hl, hr => by
    subst hl
    rw [List.flatten_cons]
    simp only [List.length_cons]
    rw [chunkN_cons _ _ _ _ (hr row (by simp))]
    rw [chunkN_flatten_rows rest rest.length w rfl (fun r hrr => hr r (by simp [hrr]))]

theorem reshape3_flatten3 (t : Tensor3) (m h w : Nat) (hsh : Shape3 t m h w) :
    reshape3 m h w (flatten3 t) = t := by
  obtain ⟨hl, hmat⟩ := hsh
  unfold reshape3 flatten3
  have houter : chunkN (h * w) m (t.map List.flatten).flatten = t.map List.flatten := by
    apply chunkN_flatten_rows
    · rw [List.length_map]; exact hl
    · intro r hrr
      rw [List.mem_map] at hrr
      obtain ⟨mat, hmem, rfl⟩ := hrr
      rw [List.length_flatten]
      obtain ⟨hmh, hmw⟩ := hmat mat hmem
      have hconst : mat.map List.length = List.replicate mat.length w := by
        rw [← List.map_const']
        exact List.map_congr_left (fun row hrow => hmw row hrow)
      rw [hconst, List.sum_replicate, smul_eq_mul, hmh, mul_comm]
  rw [houter, List.map_map]
  have hid : ∀ mat ∈ t, (chunkN w h ∘ List.flatten) mat = mat := by
    intro mat hmem
    obtain ⟨hmh, hmw⟩ := hmat mat hmem
    exact chunkN_flatten_rows mat h w hmh hmw
  rw [List.map_congr_left hid]
  simp

theorem zip3_length {α β γ : Type} : ∀ (as : List α) (bs : List β) (cs : List γ),
    as.length = bs.length → bs.length = cs.length → (zip3 as bs cs).length = as.length
  | [], _, _, _, _ => by unfold zip3; rfl
  | a :: as, [], _, h1, _ => by simp at h1
  | a :: as, b :: bs, [], _, h2 => by simp at h2
  | a :: as, b :: bs, c :: cs, h1, h2 => by
    unfold zip3
    simp only [List.length_cons]
    rw [zip3_length as bs cs (by simpa using h1) (by simpa using h2)]

theorem zip3_getD {α β γ : Type} (da : α) (db : β) (dc : γ) :
    ∀ (as : List α) (bs : List β) (cs : List γ) (i : Nat),
    i < as.length → i < bs.length → i < cs.length →
    (zip3 as bs cs).getD i (da, db, dc) = (as.getD i da, bs.getD i db, cs.getD i dc)
  | [], _, _, i, h1, _, _ => by simp at h1
  | a :: as, [], _, i, _, h2, _ => by simp at h2
  | a :: as, b :: bs, [], i, _, _, h3 => by simp at h3
  | a :: as, b :: bs, c :: cs, 0, _, _, _ => by unfold zip3; rfl
  | a :: as, b :: bs, c :: cs, i + 1, h1, h2, h3 => by
    unfold zip3
    simp only [List.getD_cons_succ]
    exact zip3_getD da db dc as bs cs i (by simpa using h1) (by simpa using h2)
      (by simpa using h3)

theorem zip5_length {α β γ δ ε : Type} :
    ∀ (as : List α) (bs : List β) (cs : List γ) (ds : List δ) (es : List ε),
    as.length = bs.length → bs.length = cs.length → cs.length = ds.length →
    ds.length = es.length → (zip5 as bs cs ds es).length = as.length
  | [], _, _, _, _, _, _, _, _ => by unfold zip5; rfl
  | a :: as, [], _, _, _, h1, _, _, _ => by simp at h1
  | a :: as, b :: bs, [], _, _, _, h2, _, _ => by simp at h2
  | a :: as, b :: bs, c :: cs, [], _, _, _, h3, _ => by simp at h3
  | a :: as, b :: bs, c :: cs, d :: ds, [], _, _, _, h4 => by simp at h4
  | a :: as, b :: bs, c :: cs, d :: ds, e :: es, h1, h2, h3, h4 => by
    unfold zip5
    simp only [List.length_cons]
    rw [zip5_length as bs cs ds es (by simpa using h1) (by simpa using h2)
      (by simpa using h3) (by simpa using h4)]

theorem zip5_getD {α β γ δ ε : Type} (da : α) (db : β) (dc : γ) (dd : δ) (de : ε) :
    ∀ (as : List α) (bs : List β) (cs : List γ) (ds : List δ) (es : List ε) (i : Nat),
    i < as.length → i < bs.length → i < cs.length → i < ds.length → i < es.length →
    (zip5 as bs cs ds es).getD i (da, db, dc, dd, de) =
      (as.getD i da, bs.getD i db, cs.getD i dc, ds.getD i dd, es.getD i de)
  | [], _, _, _, _, i, h1, _, _, _, _ => by simp at h1
  | a :: as, [], _, _, _, i, _, h2, _, _, _ => by simp at h2
  | a :: as, b :: bs, [], _, _, i, _, _, h3, _, _ => by simp at h3
  | a :: as, b :: bs, c :: cs, [], _, i, _, _, _, h4, _ => by simp at h4
  | a :: as, b :: bs, c :: cs, d :: ds, [], i, _, _, _, _, h5 => by simp at h5
  | a :: as, b :: bs, c :: cs, d :: ds, e :: es, 0, _, _, _, _, _ => by unfold zip5; rfl
  | a :: as, b :: bs, c :: cs, d :: ds, e :: es, i + 1, h1, h2, h3, h4, h5 => by
    unfold zip5
    simp only [List.getD_cons_succ]
    exact zip5_getD da db dc dd de as bs cs ds es i (by simpa using h1) (by simpa using h2)
      (by simpa using h3) (by simpa using h4) (by simpa using h5)

theorem filterMap_all_some {α β : Type} (f : α → Option β) (g : α → β) :
    ∀ (l : List α), (∀ x ∈ l, f x = some (g x)) → l.filterMap f = l.map g
  | [], _ => rfl
  | x :: xs, h => by
    rw [List.filterMap_cons, h x (by simp), List.map_cons]
    rw [filterMap_all_some f g xs (fun y hy => h y (by simp [hy]))]

theorem headD_eq_getD_zero {α : Type} (l : List α) (d : α) : l.headD d = l.getD 0 d := by
  cases l <;> rfl

theorem shape4_dims (t : Tensor4) (n m h w : Nat) (hsh : Shape4 t n m h w) (hn : 1 ≤ n) :
    dim0 t = n ∧ dim1 t = m := by
  obtain ⟨hl, himg⟩ := hsh
  refine ⟨hl, ?_⟩
  unfold dim1
  match t, hl with
  | img :: rest, _ =>
    simp only [List.headD_cons]
    exact (himg img (by simp)).1
  | [], hl0 =>
    exfalso
    simp at hl0
    omega

theorem checkShapeLoop_ok (n m : Nat) (hn : 1 ≤ n) : ∀ l : List Tensor4,
    (∀ c ∈ l, dim0 c = n ∧ dim1 c = m) → checkShapeLoop n m l = .ok (n, m)
  | [], _ => rfl
  | c :: rest, hall => by
    unfold checkShapeLoop
    rw [if_neg (by omega)]
    rw [if_neg (by rw [(hall c (by simp)).2]; simp)]
    rw [if_neg (by rw [(hall c (by simp)).1]; simp)]
    exact checkShapeLoop_ok n m hn rest (fun d hd => hall d (by simp [hd]))

theorem checkShape_ok (codes : List Tensor4) (n m : Nat) (hne : codes ≠ [])
    (hn : 1 ≤ n) (hall : ∀ c ∈ codes, dim0 c = n ∧ dim1 c = m) :
    checkShape codes = .ok (n, m) := by
  match codes, hne with
  | c0 :: rest, _ =>
    show checkShapeLoop (dim0 c0) (dim1 c0) (c0 :: rest) = .ok (n, m)
    have h0 := hall c0 (by simp)
    rw [h0.1, h0.2]
    exact checkShapeLoop_ok n m hn _ hall

/-! ## Claim C1 -/

/-- C1: for every non-empty list of code tensors, one per level, each of
shape `[n, m, h, w]` (`n ≥ 1`, per-level spatial sizes, boundary cases
included) with every value in `[0, K_level)`, decompressing the binaries and
`CodeSize` headers produced by `compress`, under the same CDF state, yields
exactly the original code tensors. -/
theorem claim_C1_roundtrip (s : EntropyCoder) (codes : List Tensor4) (n m : Nat)
    (hupd : s.needUpdate = true)
    (hklen : s.freqEMA.length = s.k.length)
    (hlev : codes.length = s.k.length)
    (hne : codes ≠ [])
    (hn : 1 ≤ n)
    (hshape : ∀ lv, lv < codes.length →
      Shape4 (codes.getD lv []) n m (dim2 (codes.getD lv [])) (dim3 (codes.getD lv [])))
    (hrange : ∀ lv, lv < codes.length → ∀ img ∈ codes.getD lv [], ∀ mat ∈ img,
      ∀ row ∈ mat, ∀ v ∈ row, 0 ≤ v ∧ v < (s.k.getD lv 0 : Int)) :
    ∃ binaries codeSizes,
      s.compress codes = .ok (binaries, codeSizes) ∧
      s.decompress binaries codeSizes = codes := by
  have hcdfslen : s.cdfsValue.length = codes.length := by
    rw [cdfsValue_of_needUpdate s hupd]
    unfold cdfsCompute freqCompute
    rw [List.length_map, List.length_map, hklen, ← hlev]
  have hzlen : (zip3 codes s.k s.cdfsValue).length = codes.length :=
    zip3_length _ _ _ hlev (by omega)
  have hdims : ∀ c ∈ codes, dim0 c = n ∧ dim1 c = m := by
    intro c hc
    rw [List.mem_iff_getElem] at hc
    obtain ⟨lv, hlv, rfl⟩ := hc
    have h2 := hshape lv hlv
    rw [List.getD_eq_getElem _ _ hlv] at h2
    exact shape4_dims _ n m _ _ h2 hn
  have hcheck : checkShape codes = .ok (n, m) := checkShape_ok codes n m hne hn hdims
  have hcodeslen : ∀ l, l < codes.length → (codes.getD l []).length = n :=
    fun l hl => (hshape l hl).1
  refine ⟨(List.range n).map (fun i => (zip3 codes s.k s.cdfsValue).map
      (fun t => encodeImage m (dim2 t.1) (dim3 t.1) t.2.1 t.2.2 (t.1.getD i []))),
    List.replicate n (CodeSize.mk m ((zip3 codes s.k s.cdfsValue).map (fun t => dim2 t.1))
      ((zip3 codes s.k s.cdfsValue).map (fun t => dim3 t.1)) s.k), ?_, ?_⟩
  · unfold EntropyCoder.compress
    rw [hcheck]
  · have hz5i : ∀ i : Nat, (zip5
        ((zip3 codes s.k s.cdfsValue).map
          (fun t => encodeImage m (dim2 t.1) (dim3 t.1) t.2.1 t.2.2 (t.1.getD i [])))
        s.cdfsValue s.k
        ((zip3 codes s.k s.cdfsValue).map (fun t => dim2 t.1))
        ((zip3 codes s.k s.cdfsValue).map (fun t => dim3 t.1))).length = codes.length := by
      intro i
      rw [zip5_length _ _ _ _ _
        (by rw [List.length_map, hzlen, hcdfslen])
        (by rw [hcdfslen]; exact hlev)
        (by rw [List.length_map, hzlen]; exact hlev.symm)
        (by rw [List.length_map, List.length_map])]
      rw [List.length_map, hzlen]
    have hlevelD : ∀ l, l < codes.length →
        (zip3 codes s.k s.cdfsValue).getD l ([], 0, []) =
          (codes.getD l [], s.k.getD l 0, s.cdfsValue.getD l []) :=
      fun l hl => zip3_getD [] 0 [] codes s.k s.cdfsValue l hl (by omega) (by omega)
    have hdecode : ∀ i, i < n → ∀ l, l < codes.length →
        (decodeImage s.cdfsValue s.k
          ((zip3 codes s.k s.cdfsValue).map
            (fun t => encodeImage m (dim2 t.1) (dim3 t.1) t.2.1 t.2.2 (t.1.getD i [])))
          (CodeSize.mk m ((zip3 codes s.k s.cdfsValue).map (fun t => dim2 t.1))
            ((zip3 codes s.k s.cdfsValue).map (fun t => dim3 t.1)) s.k)).getD l [] =
          (codes.getD l []).getD i [] := by
      intro i hi l hl
      unfold decodeImage
      dsimp only
      rw [getD_map_of_lt _ _ l []
        ((⟨[], [], [], [], []⟩ : RansBinary), [], 0, 0, 0) (by rw [hz5i i]; exact hl)]
      rw [zip5_getD _ _ _ _ _ _ _ _ _ _ l
        (by rw [List.length_map, hzlen]; exact hl)
        (by rw [hcdfslen]; exact hl)
        (by rw [← hlev]; exact hl)
        (by rw [List.length_map, hzlen]; exact hl)
        (by rw [List.length_map, hzlen]; exact hl)]
      rw [getD_map_of_lt _ _ l (⟨[], [], [], [], []⟩ : RansBinary) ([], 0, [])
        (by rw [hzlen]; exact hl)]
      rw [getD_map_of_lt _ _ l 0 ([], 0, []) (by rw [hzlen]; exact hl)]
      rw [getD_map_of_lt _ _ l 0 ([], 0, []) (by rw [hzlen]; exact hl)]
      rw [hlevelD l hl]
      dsimp only
      unfold encodeImage encodeWithIndexes decodeWithIndexes
      dsimp only
      rw [if_pos ⟨rfl, rfl, rfl, rfl⟩]
      have hilen : i < (codes.getD l []).length := by
        rw [hcodeslen l hl]
        exact hi
      have himg : (codes.getD l []).getD i [] ∈ codes.getD l [] := by
        rw [List.getD_eq_getElem _ _ hilen]
        exact List.getElem_mem hilen
      exact reshape3_flatten3 _ m _ _ ((hshape l hl).2 _ himg)
    unfold EntropyCoder.decompress
    dsimp only
    have hbhead : ((((List.range n).map (fun i => (zip3 codes s.k s.cdfsValue).map
        (fun t => encodeImage m (dim2 t.1) (dim3 t.1) t.2.1 t.2.2 (t.1.getD i [])))).headD
          []).length) = codes.length := by
      rw [headD_eq_getD_zero]
      rw [getD_map_of_lt _ _ 0 [] 0 (by simpa using hn)]
      rw [List.length_map, hzlen]
    rw [hbhead]
    have hbinsD : ∀ i, i < n →
        ((List.range n).map (fun i => (zip3 codes s.k s.cdfsValue).map
          (fun t => encodeImage m (dim2 t.1) (dim3 t.1) t.2.1 t.2.2 (t.1.getD i [])))).getD i [] =
        (zip3 codes s.k s.cdfsValue).map
          (fun t => encodeImage m (dim2 t.1) (dim3 t.1) t.2.1 t.2.2 (t.1.getD i [])) := by
      intro i hi
      rw [getD_map_of_lt _ _ i [] 0 (by simpa using hi)]
      congr 2
      rw [List.getD_eq_getElem _ _ (by simpa using hi), List.getElem_range]
    apply List.ext_getElem
    · simp
    · intro l hlr hlc
      rw [List.getElem_map, List.getElem_range]
      have hl : l < codes.length := by simpa using hlr
      have hfm : (((List.range n).map (fun i => (zip3 codes s.k s.cdfsValue).map
            (fun t => encodeImage m (dim2 t.1) (dim3 t.1) t.2.1 t.2.2 (t.1.getD i [])))).zip
            (List.replicate n (CodeSize.mk m
              ((zip3 codes s.k s.cdfsValue).map (fun t => dim2 t.1))
              ((zip3 codes s.k s.cdfsValue).map (fun t => dim3 t.1)) s.k))).map
          (fun p => decodeImage s.cdfsValue s.k p.1 p.2) =
          (List.range n).map (fun i => decodeImage s.cdfsValue s.k
            ((zip3 codes s.k s.cdfsValue).map
              (fun t => encodeImage m (dim2 t.1) (dim3 t.1) t.2.1 t.2.2 (t.1.getD i [])))
            (CodeSize.mk m ((zip3 codes s.k s.cdfsValue).map (fun t => dim2 t.1))
              ((zip3 codes s.k s.cdfsValue).map (fun t => dim3 t.1)) s.k)) := by
        apply List.ext_getElem
        · simp
        · intro i hi1 hi2
          have hin : i < n := by simpa using hi2
          rw [List.getElem_map, List.getElem_map, List.getElem_range, List.getElem_zip]
          rw [List.getElem_map, List.getElem_range, List.getElem_replicate]
      rw [hfm]
      have hsome : ∀ img ∈ (List.range n).map (fun i => decodeImage s.cdfsValue s.k
          ((zip3 codes s.k s.cdfsValue).map
            (fun t => encodeImage m (dim2 t.1) (dim3 t.1) t.2.1 t.2.2 (t.1.getD i [])))
          (CodeSize.mk m ((zip3 codes s.k s.cdfsValue).map (fun t => dim2 t.1))
            ((zip3 codes s.k s.cdfsValue).map (fun t => dim3 t.1)) s.k)),
          img[l]? = some (img.getD l []) := by
        intro img himg
        rw [List.mem_map] at himg
        obtain ⟨i, hirange, rfl⟩ := himg
        have hdlen : (decodeImage s.cdfsValue s.k
            ((zip3 codes s.k s.cdfsValue).map
              (fun t => encodeImage m (dim2 t.1) (dim3 t.1) t.2.1 t.2.2 (t.1.getD i [])))
            (CodeSize.mk m ((zip3 codes s.k s.cdfsValue).map (fun t => dim2 t.1))
              ((zip3 codes s.k s.cdfsValue).map (fun t => dim3 t.1)) s.k)).length =
            codes.length := by
          unfold decodeImage
          rw [List.length_map]
          exact hz5i i
        rw [List.getElem?_eq_getElem (by rw [hdlen]; exact hl)]
        rw [List.getD_eq_getElem _ _ (by rw [hdlen]; exact hl)]
      rw [filterMap_all_some _ _ _ hsome]
      rw [List.map_map]
      apply List.ext_getElem
      · rw [List.length_map, List.length_range]
        have hcl := hcodeslen l hl
        rw [List.getD_eq_getElem _ _ hl] at hcl
        omega
      · intro i hi1 hi2
        have hin : i < n := by simpa using hi1
        rw [List.getElem_map, List.getElem_range]
        have h3 := hdecode i hin l hl
        rw [List.getD_eq_getElem _ _ hl] at h3
        rw [← List.getD_eq_getElem (codes[l]) [] (by
          have := hcodeslen l hl
          rw [List.getD_eq_getElem _ _ hl] at this
          omega)]
        exact h3

/-- Witness for C1: a fresh coder with m = 1, K = [1], and one level of
shape [1, 1, 1, 1] holding the only in-range symbol 0. -/
theorem claim_C1_witness :
    ∃ binaries codeSizes,
      (mkEntropyCoder 1 [1] (99 / 100)).compress [[[[[0]]]]] = .ok (binaries, codeSizes) ∧
      (mkEntropyCoder 1 [1] (99 / 100)).decompress binaries codeSizes = [[[[[0]]]]] :=
  claim_C1_roundtrip (mkEntropyCoder 1 [1] (99 / 100)) [[[[[0]]]]] 1 1 rfl rfl rfl
    (by decide) (by decide)
    (by intro lv hlv
        have hlv0 : lv = 0 := by simpa using hlv
        subst hlv0
        decide)
    (by intro lv hlv
        have hlv0 : lv = 0 := by simpa using hlv
        subst hlv0
        decide)
